import Mathlib

/-!
# Wallet key management (package `wallet`)

A shallow embedding of `pkg/wallet/wallet.go`: the wallet record, the
password-based sealing of its private key (PBKDF2-HMAC-SHA256, AES-256-GCM),
the address text format (base-58 check encoding), the file store
(`Persist`, `Load`, `LoadAll`) and wallet generation.

Go values are modelled as follows.
* `byte` is `Fin 256`; a `[]byte` and a `string` are both lists of bytes (a Go
  string is an arbitrary byte sequence, not necessarily UTF-8).  A nil slice
  and an empty slice are both the empty list.
* A method with a pointer receiver returns the receiver after the call next to
  its Go result.
* A Go `panic` is an outcome of its own, distinct from a returned `error`.
* The library functions the package calls (`crypto/sha256`, `crypto/hmac`, `pbkdf2`,
  `crypto/aes`, `cipher.NewGCM`, `base58`, `encoding/json`, `encoding/base64`, `unicode/utf8`,
  `os`) are embedded as executable definitions following their published algorithms and
  documented behaviour.  The hash `blake3.Sum256` and the random draws of `Generate` are
  parameters.
-/

namespace wallet

/-! ## Bytes and strings -/

abbrev Byte := Fin 256

abbrev Bytes := List Byte

/-- A Go string: a sequence of bytes. -/
abbrev GoString := List Byte

/-- The bytes of an ASCII string literal of the source. -/
def ascii (s : String) : GoString :=
  s.toList.map (fun c => Fin.ofNat c.toNat)

/-- Go `strings.HasPrefix`: `len(s) >= len(p) && s[:len(p)] == p`. -/
def hasPrefix (s p : GoString) : Bool :=
  decide (p.length ≤ s.length) && decide (s.take p.length = p)

/-- Go `strings.HasSuffix`: `len(s) >= len(p) && s[len(s)-len(p):] == p`. -/
def hasSuffix (s p : GoString) : Bool :=
  decide (p.length ≤ s.length) && decide (s.drop (s.length - p.length) = p)

/-! ## Constants -/

def SecretKeyLength : Nat := 32
def PBKDF2NbRound : Nat := 10000
def FileModeUserReadWriteOnly : Nat := 0o600
def Base58Version : Byte := 0x00
def SaltSize : Nat := 12
def NonceSize : Nat := 12

/-! ## Data model -/

/-- All the information necessary to save a key pair securely. -/
structure KeyPair where
  PrivateKey : Bytes
  PublicKey : Bytes
  Salt : Bytes
  Nonce : Bytes
  deriving DecidableEq, Repr

/-- Links a nickname, an address and a version to a key pair. -/
structure Wallet where
  Version : Byte
  Nickname : GoString
  Address : GoString
  KeyPair : KeyPair
  deriving DecidableEq, Repr

/-- `Filename`: `fmt.Sprintf("wallet_%s.json", nickname)`. -/
def Filename (nickname : GoString) : GoString :=
  ascii "wallet_" ++ nickname ++ ascii ".json"

/-- The test `LoadAll` applies to every entry name of the working directory. -/
def isWalletFileName (fileName : GoString) : Bool :=
  hasPrefix fileName (ascii "wallet_") && hasSuffix fileName (ascii ".json")

/-- A return value, a returned `error`, or a `panic`. -/
inductive Res (α : Type) where
  | ok (v : α)
  | err (e : GoString)
  | panic (msg : GoString)
  deriving DecidableEq, Repr

/-- Bytewise exclusive or; the result is as long as the shorter argument. -/
def xorBytes (x y : Bytes) : Bytes := List.zipWith (· ^^^ ·) x y

/-! ## SHA-256 (FIPS 180-4), the hash behind `sha256.New` -/

/-- The 32-bit word of four bytes, most significant first. -/
def be32 (b0 b1 b2 b3 : Nat) : Nat := b0 * 16777216 + b1 * 65536 + b2 * 256 + b3

/-- The four bytes of a 32-bit word, most significant first. -/
def be32Bytes (x : Nat) : Bytes :=
  [Fin.ofNat (x / 16777216), Fin.ofNat (x / 65536), Fin.ofNat (x / 256), Fin.ofNat x]

/-- The eight bytes of a 64-bit word, most significant first. -/
def be64Bytes (x : Nat) : Bytes :=
  be32Bytes (x / 4294967296 % 4294967296) ++ be32Bytes (x % 4294967296)

def rotr32 (x n : Nat) : Nat := ((x >>> n) ||| (x <<< (32 - n))) % 4294967296

def add32 (x y : Nat) : Nat := (x + y) % 4294967296

def not32 (x : Nat) : Nat := 4294967295 - x % 4294967296

def sha256K : List Nat :=
  [0x428a2f98, 0x71374491, 0xb5c0fbcf, 0xe9b5dba5, 0x3956c25b, 0x59f111f1, 0x923f82a4, 0xab1c5ed5,
   0xd807aa98, 0x12835b01, 0x243185be, 0x550c7dc3, 0x72be5d74, 0x80deb1fe, 0x9bdc06a7, 0xc19bf174,
   0xe49b69c1, 0xefbe4786, 0x0fc19dc6, 0x240ca1cc, 0x2de92c6f, 0x4a7484aa, 0x5cb0a9dc, 0x76f988da,
   0x983e5152, 0xa831c66d, 0xb00327c8, 0xbf597fc7, 0xc6e00bf3, 0xd5a79147, 0x06ca6351, 0x14292967,
   0x27b70a85, 0x2e1b2138, 0x4d2c6dfc, 0x53380d13, 0x650a7354, 0x766a0abb, 0x81c2c92e, 0x92722c85,
   0xa2bfe8a1, 0xa81a664b, 0xc24b8b70, 0xc76c51a3, 0xd192e819, 0xd6990624, 0xf40e3585, 0x106aa070,
   0x19a4c116, 0x1e376c08, 0x2748774c, 0x34b0bcb5, 0x391c0cb3, 0x4ed8aa4a, 0x5b9cca4f, 0x682e6ff3,
   0x748f82ee, 0x78a5636f, 0x84c87814, 0x8cc70208, 0x90befffa, 0xa4506ceb, 0xbef9a3f7, 0xc67178f2]

/-- The chaining value: eight 32-bit words. -/
structure SHA256State where
  a : Nat
  b : Nat
  c : Nat
  d : Nat
  e : Nat
  f : Nat
  g : Nat
  h : Nat
  deriving DecidableEq, Repr

def sha256Init : SHA256State :=
  ⟨0x6a09e667, 0xbb67ae85, 0x3c6ef372, 0xa54ff53a, 0x510e527f, 0x9b05688c, 0x1f83d9ab, 0x5be0cd19⟩

/-- The sixteen message words of a 64-byte block. -/
def blockWords (block : Bytes) : List Nat :=
  (List.range 16).map fun i =>
    be32 (block.getD (4 * i) 0).val (block.getD (4 * i + 1) 0).val (block.getD (4 * i + 2) 0).val
      (block.getD (4 * i + 3) 0).val

/-- The message schedule: the sixteen block words extended to sixty-four. -/
def sha256Schedule (block : Bytes) : List Nat :=
  (List.range 48).foldl (fun w _ =>
    let i := w.length
    let w15 := w.getD (i - 15) 0
    let w2 := w.getD (i - 2) 0
    let s0 := rotr32 w15 7 ^^^ rotr32 w15 18 ^^^ (w15 >>> 3)
    let s1 := rotr32 w2 17 ^^^ rotr32 w2 19 ^^^ (w2 >>> 10)
    w ++ [add32 (add32 (add32 (w.getD (i - 16) 0) s0) (w.getD (i - 7) 0)) s1]) (blockWords block)

/-- One round of the compression function with round constant `k` and message word `w`. -/
def sha256Round (s : SHA256State) (k w : Nat) : SHA256State :=
  let s1 := rotr32 s.e 6 ^^^ rotr32 s.e 11 ^^^ rotr32 s.e 25
  let ch := (s.e &&& s.f) ^^^ (not32 s.e &&& s.g)
  let t1 := add32 (add32 (add32 (add32 s.h s1) ch) k) w
  let s0 := rotr32 s.a 2 ^^^ rotr32 s.a 13 ^^^ rotr32 s.a 22
  let maj := (s.a &&& s.b) ^^^ (s.a &&& s.c) ^^^ (s.b &&& s.c)
  let t2 := add32 s0 maj
  ⟨add32 t1 t2, s.a, s.b, s.c, add32 s.d t1, s.e, s.f, s.g⟩

/-- The compression function on one 64-byte block. -/
def sha256Block (s : SHA256State) (block : Bytes) : SHA256State :=
  let r := (List.zip sha256K (sha256Schedule block)).foldl (fun t kw => sha256Round t kw.1 kw.2) s
  ⟨add32 s.a r.a, add32 s.b r.b, add32 s.c r.c, add32 s.d r.d,
   add32 s.e r.e, add32 s.f r.f, add32 s.g r.g, add32 s.h r.h⟩

/-- The message followed by the bit `1`, zero bits and the 64-bit bit length, a multiple of
64 bytes long. -/
def sha256Pad (m : Bytes) : Bytes :=
  m ++ [0x80] ++ List.replicate ((119 - m.length % 64) % 64) 0 ++ be64Bytes (8 * m.length)

/-- Successive blocks of `n` items, the last one possibly shorter; `fuel` bounds their number. -/
def chunks {α : Type} (n : Nat) : Nat → List α → List (List α)
  | 0, _ => []
  | _ + 1, [] => []
  | fuel + 1, x :: xs => (x :: xs).take n :: chunks n fuel ((x :: xs).drop n)

/-- `sha256.Sum256`: the 32-byte digest. -/
def sha256 (m : Bytes) : Bytes :=
  let p := sha256Pad m
  let s := (chunks 64 p.length p).foldl sha256Block sha256Init
  be32Bytes s.a ++ be32Bytes s.b ++ be32Bytes s.c ++ be32Bytes s.d ++
  be32Bytes s.e ++ be32Bytes s.f ++ be32Bytes s.g ++ be32Bytes s.h

/-! ## HMAC (`crypto/hmac`) and PBKDF2 (`golang.org/x/crypto/pbkdf2`) -/

/-- The key block of `hmac.New(sha256.New, key)`: a key longer than the 64-byte block is hashed
first, then the key is padded with zero bytes to 64 bytes. -/
def hmacKeyBlock (key : Bytes) : Bytes :=
  let k := if key.length > 64 then sha256 key else key
  k ++ List.replicate (64 - k.length) 0

/-- HMAC-SHA256 of `msg` under `key`. -/
def hmacSHA256 (key msg : Bytes) : Bytes :=
  let kb := hmacKeyBlock key
  sha256 (kb.map (· ^^^ 0x5c) ++ sha256 (kb.map (· ^^^ 0x36) ++ msg))

/-- The loop `for x := range U { T[x] ^= U[x] }` of `pbkdf2.Key`. -/
def xorInto (t u : Bytes) : Bytes :=
  (List.range u.length).map fun x => t.getD x 0 ^^^ u.getD x 0

/-- The pair `(T, U)` of PBKDF2 after `n` further applications of the pseudorandom function
`prf`: `U` becomes `prf U` and is xored into `T`. -/
def pbkdf2Iter (prf : Bytes → Bytes) : Nat → Bytes × Bytes → Bytes × Bytes
  | 0, tu => tu
  | n + 1, (t, u) => pbkdf2Iter prf n (xorInto t (prf u), prf u)

/-- Block number `block` of the derived key: `U_1 ^ U_2 ^ ... ^ U_iter`, where
`U_1 = prf (salt || block)`. -/
def pbkdf2Block (prf : Bytes → Bytes) (salt : Bytes) (iter block : Nat) : Bytes :=
  let u1 := prf (salt ++ be32Bytes block)
  (pbkdf2Iter prf (iter - 1) (u1, u1)).1

/-- `pbkdf2.Key(password, salt, iter, keyLen, sha256.New)`: the first `keyLen` bytes of the
blocks `1 .. numBlocks`, computed with `prf = hmac.New(sha256.New, password)`. -/
def pbkdf2Key (password salt : Bytes) (iter keyLen : Nat) : Bytes :=
  let prf := hmacSHA256 password
  let hashLen := 32
  let numBlocks := (keyLen + hashLen - 1) / hashLen
  (((List.range numBlocks).map fun i => pbkdf2Block prf salt iter (i + 1)).flatten).take keyLen

/-! ## AES (FIPS 197), the block cipher behind `aes.NewCipher` -/

/-- Multiplication by `x` in GF(2^8) modulo `x^8 + x^4 + x^3 + x + 1`. -/
def xtime (a : Nat) : Nat :=
  if a < 128 then 2 * a else (2 * a - 256) ^^^ 0x1b

/-- Multiplication in GF(2^8), by shift and add over the eight bits of `b`. -/
def gfMul (a b : Nat) : Nat :=
  ((List.range 8).foldl (fun (acc : Nat × Nat) i =>
    (if b.testBit i then acc.1 ^^^ acc.2 else acc.1, xtime acc.2)) (0, a)).1

/-- The multiplicative inverse in GF(2^8) (`a^254`), with `0` mapped to `0`. -/
def gfInv (a : Nat) : Nat :=
  (List.range 253).foldl (fun acc _ => gfMul acc a) a

/-- Rotation of a byte to the left. -/
def rotl8 (x n : Nat) : Nat := ((x <<< n) ||| (x >>> (8 - n))) % 256

/-- The AES S-box: the field inverse followed by the affine transformation. -/
def sbox (a : Nat) : Nat :=
  let b := gfInv a
  b ^^^ rotl8 b 1 ^^^ rotl8 b 2 ^^^ rotl8 b 3 ^^^ rotl8 b 4 ^^^ 0x63

/-- Round constants of the key expansion: powers of `x`. -/
def rcon (i : Nat) : Nat := (List.range (i - 1)).foldl (fun acc _ => xtime acc) 1

/-- The expanded key, as a list of 4-byte words, from a key of `nk` words. -/
def expandKey (key : List Nat) (nk : Nat) : List (List Nat) :=
  (List.range (4 * (nk + 7) - nk)).foldl (fun w _ =>
    let i := w.length
    let prev := w.getD (i - 1) []
    let temp :=
      if i % nk = 0 then
        List.zipWith (· ^^^ ·) ((prev.rotateLeft 1).map sbox) [rcon (i / nk), 0, 0, 0]
      else if nk > 6 ∧ i % nk = 4 then prev.map sbox
      else prev
    w ++ [List.zipWith (· ^^^ ·) (w.getD (i - nk) []) temp])
    ((List.range nk).map fun i => (key.drop (4 * i)).take 4)

/-- The 16 bytes of round key number `r`. -/
def roundKey (w : List (List Nat)) (r : Nat) : List Nat :=
  ((w.drop (4 * r)).take 4).flatten

def addRoundKey (s k : List Nat) : List Nat :=
  (List.range 16).map fun i => s.getD i 0 ^^^ k.getD i 0

def subBytes (s : List Nat) : List Nat := s.map sbox

/-- Row `r` of the state (bytes `r`, `r+4`, `r+8`, `r+12`) is rotated left by `r` columns. -/
def shiftRows (s : List Nat) : List Nat :=
  (List.range 16).map fun i => s.getD (i % 4 + 4 * ((i / 4 + i % 4) % 4)) 0

def mixColumns (s : List Nat) : List Nat :=
  (List.range 16).map fun i =>
    let c := 4 * (i / 4)
    let r := i % 4
    gfMul 2 (s.getD (c + r) 0) ^^^ gfMul 3 (s.getD (c + (r + 1) % 4) 0) ^^^
      s.getD (c + (r + 2) % 4) 0 ^^^ s.getD (c + (r + 3) % 4) 0

/-- An AES block cipher (`cipher.Block`): the expanded key and the number of rounds. -/
structure AESCipher where
  w : List (List Nat)
  rounds : Nat
  deriving DecidableEq, Repr

/-- `BlockSize` of an AES cipher. -/
def AESCipher.BlockSize (_ : AESCipher) : Nat := 16

/-- Encryption of one 16-byte block. -/
def AESCipher.Encrypt (c : AESCipher) (src : Bytes) : Bytes :=
  let s0 := addRoundKey (src.map Fin.val) (roundKey c.w 0)
  let s := (List.range (c.rounds - 1)).foldl (fun s r =>
    addRoundKey (mixColumns (shiftRows (subBytes s))) (roundKey c.w (r + 1))) s0
  (addRoundKey (shiftRows (subBytes s)) (roundKey c.w c.rounds)).map (Fin.ofNat ·)

/-- The decimal digits of a number, as `strconv.Itoa` writes them. -/
def itoa (n : Nat) : GoString := (Nat.toDigits 10 n).map (fun c => Fin.ofNat c.toNat)

/-- `aes.NewCipher`: the key must be 16, 24 or 32 bytes long. -/
def NewCipher (key : Bytes) : Except GoString AESCipher :=
  if key.length = 16 ∨ key.length = 24 ∨ key.length = 32 then
    .ok ⟨expandKey (key.map Fin.val) (key.length / 4), key.length / 4 + 6⟩
  else
    .error (ascii "crypto/aes: invalid key size " ++ itoa key.length)

/-! ## Galois/Counter mode (`cipher.NewGCM`) -/

/-- The 128-bit integer of a block of at most 16 bytes, first byte most significant, the
block padded with zero bytes. -/
def blockNat (b : Bytes) : Nat :=
  (List.range 16).foldl (fun acc i => acc * 256 + (b.getD i 0).val) 0

/-- The 16 bytes of a 128-bit integer, most significant first. -/
def natBlock (x : Nat) : Bytes :=
  (List.range 16).map fun i => Fin.ofNat (x / 256 ^ (15 - i))

/-- Multiplication in GF(2^128) in the bit order of GCM: the most significant bit of the
integer is the coefficient of `x^0`. -/
def gcmMul (x y : Nat) : Nat :=
  ((List.range 128).foldl (fun (zv : Nat × Nat) i =>
    (if x.testBit (127 - i) then zv.1 ^^^ zv.2 else zv.1,
     if zv.2 % 2 = 1 then (zv.2 / 2) ^^^ 0xe1000000000000000000000000000000 else zv.2 / 2))
    (0, y)).1

/-- GHASH under the hash key `h` of the additional data and the ciphertext, each padded with
zero bytes to whole blocks, followed by the block of their bit lengths. -/
def ghash (h : Nat) (data ciphertext : Bytes) : Nat :=
  let blocks := chunks 16 data.length data ++ chunks 16 ciphertext.length ciphertext ++
    [natBlock ((8 * data.length) * 18446744073709551616 + 8 * ciphertext.length)]
  blocks.foldl (fun y b => gcmMul (y ^^^ blockNat b) h) 0

/-- `gcmInc32`: the last four bytes of the counter block, read as a big-endian integer, are
incremented modulo `2^32`. -/
def gcmInc32 (counter : Bytes) : Bytes :=
  counter.take 12 ++
    be32Bytes ((be32 (counter.getD 12 0).val (counter.getD 13 0).val (counter.getD 14 0).val
      (counter.getD 15 0).val + 1) % 4294967296)

/-- `counterCrypt`: each 16-byte block of the input is xored with the encryption of the
counter, which is incremented from block to block; `fuel` bounds the number of blocks. -/
def counterCrypt (c : AESCipher) : Nat → Bytes → Bytes → Bytes
  | 0, _, _ => []
  | _ + 1, [], _ => []
  | fuel + 1, x :: xs, counter =>
    xorBytes ((x :: xs).take 16) (c.Encrypt counter) ++
      counterCrypt c fuel ((x :: xs).drop 16) (gcmInc32 counter)

def gcmStandardNonceSize : Nat := 12
def gcmTagSize : Nat := 16

/-- The longest plaintext GCM accepts: `((1 << 32) - 2) * BlockSize` bytes. -/
def gcmMaxPlaintext : Nat := (2 ^ 32 - 2) * 16

/-- An AES-GCM AEAD with the standard nonce and tag sizes. -/
structure GCM where
  cipher : AESCipher
  deriving DecidableEq, Repr

/-- `cipher.NewGCM`: the block cipher must have 128-bit blocks. -/
def NewGCM (block : AESCipher) : Except GoString GCM :=
  if block.BlockSize ≠ 16 then
    .error (ascii "cipher: NewGCM requires 128-bit block cipher")
  else
    .ok ⟨block⟩

/-- The counter block of a 12-byte nonce: the nonce followed by the 32-bit integer 1. -/
def deriveCounter (nonce : Bytes) : Bytes := nonce ++ [0, 0, 0, 1]

/-- The tag: GHASH of data and ciphertext xored with the encrypted initial counter block. -/
def GCM.auth (g : GCM) (nonce ciphertext data : Bytes) : Bytes :=
  let h := blockNat (g.cipher.Encrypt (List.replicate 16 0))
  let tagMask := g.cipher.Encrypt (deriveCounter nonce)
  xorBytes (natBlock (ghash h data ciphertext)) tagMask

/-- The counter-mode transformation shared by `Seal` and `Open`, starting from the counter
block after the initial one. -/
def GCM.crypt (g : GCM) (nonce input : Bytes) : Bytes :=
  counterCrypt g.cipher input.length input (gcmInc32 (deriveCounter nonce))

/-- `Seal(nil, nonce, plaintext, data)`: ciphertext followed by the 16-byte tag.  `Seal`
returns no error; `.error` is a panic. -/
def GCM.Seal (g : GCM) (nonce plaintext data : Bytes) : Except GoString Bytes :=
  if nonce.length ≠ gcmStandardNonceSize then
    .error (ascii "crypto/cipher: incorrect nonce length given to GCM")
  else if plaintext.length > gcmMaxPlaintext then
    .error (ascii "crypto/cipher: message too large for GCM")
  else
    let out := g.crypt nonce plaintext
    .ok (out ++ g.auth nonce out data)

def errOpen : GoString := ascii "cipher: message authentication failed"

/-- `Open(nil, nonce, ciphertext, data)`: the plaintext when the tag at the end of
`ciphertext` is the one computed over the bytes before it, `errOpen` otherwise. -/
def GCM.Open (g : GCM) (nonce ciphertext data : Bytes) : Res Bytes :=
  if nonce.length ≠ gcmStandardNonceSize then
    .panic (ascii "crypto/cipher: incorrect nonce length given to GCM")
  else if ciphertext.length < gcmTagSize then
    .err errOpen
  else if ciphertext.length > gcmMaxPlaintext + gcmTagSize then
    .err errOpen
  else
    let tag := ciphertext.drop (ciphertext.length - gcmTagSize)
    let ct := ciphertext.take (ciphertext.length - gcmTagSize)
    if g.auth nonce ct data ≠ tag then
      .err errOpen
    else
      .ok (g.crypt nonce ct)

/-! ## Sealing the private key -/

/-- `aead`: an authenticated encryption with associated data, keyed by the PBKDF2 derivation of
the password. -/
def aead (password salt : Bytes) : Except GoString GCM :=
  let secretKey := pbkdf2Key password salt PBKDF2NbRound SecretKeyLength
  match NewCipher secretKey with
  | .error err => .error (ascii "intializing block ciphering: " ++ err)
  | .ok block =>
    match NewGCM block with
    | .error err =>
      .error (ascii "intializing the AES block cipher wrapped in a Gallois Counter Mode ciphering: "
        ++ err)
    | .ok aesGCM => .ok aesGCM

/-- The assignment `w.KeyPair.PrivateKey = pk`. -/
def Wallet.setPrivateKey (w : Wallet) (pk : Bytes) : Wallet :=
  { w with KeyPair := { w.KeyPair with PrivateKey := pk } }

/-- `Protect`: the private key is replaced by its seal under the given password. -/
def Wallet.Protect (w : Wallet) (password : GoString) : Wallet × Res Unit :=
  match aead password w.KeyPair.Salt with
  | .error err => (w, .err (ascii "while protecting wallet: " ++ err))
  | .ok a =>
    match a.Seal w.KeyPair.Nonce w.KeyPair.PrivateKey [] with
    | .error msg => (w, .panic msg)
    | .ok ct => (w.setPrivateKey ct, .ok ())

/-- `Unprotect`: the private key is replaced by the plaintext its seal opens to under the given
password. -/
def Wallet.Unprotect (w : Wallet) (password : GoString) : Wallet × Res Unit :=
  match aead password w.KeyPair.Salt with
  | .error err => (w, .err (ascii "while unprotecting wallet: " ++ err))
  | .ok a =>
    match a.Open w.KeyPair.Nonce w.KeyPair.PrivateKey [] with
    | .panic msg => (w, .panic msg)
    | .err err => (w, .err (ascii "opening the private key seal: " ++ err))
    | .ok pk => (w.setPrivateKey pk, .ok ())

/-- The seal `Protect` stores: the counter-mode ciphertext followed by its tag. -/
def sealOf (g : GCM) (w : Wallet) : Bytes :=
  g.crypt w.KeyPair.Nonce w.KeyPair.PrivateKey ++
    g.auth w.KeyPair.Nonce (g.crypt w.KeyPair.Nonce w.KeyPair.PrivateKey) []

/-! ## Base-58 check encoding (`github.com/btcsuite/btcutil/base58`) -/

/-- The modified base-58 alphabet. -/
def alphabet : List Byte :=
  ascii "123456789ABCDEFGHJKLMNPQRSTUVWXYZabcdefghijkmnopqrstuvwxyz"

/-- The digit `0` of the alphabet, the character `1`. -/
def alphabetIdx0 : Byte := 49

/-- `big.Int.SetBytes`: the integer of a big-endian byte sequence. -/
def bytesToNat (b : Bytes) : Nat := b.foldl (fun acc x => acc * 256 + x.val) 0

/-- The digits of `x` in base `radix`, least significant first, none for `0`: the loop
`for x > 0 { x, mod = x / radix, x % radix }`; `fuel` bounds the number of digits. -/
def digitsLE (radix : Nat) : Nat → Nat → List Nat
  | 0, _ => []
  | fuel + 1, x => if x = 0 then [] else x % radix :: digitsLE radix fuel (x / radix)

/-- `big.Int.Bytes`: the big-endian bytes of an integer, without leading zero bytes. -/
def natToBytes (x : Nat) : Bytes := (digitsLE 256 x x).reverse.map (Fin.ofNat ·)

/-- The number of leading items of `s` equal to `c`. -/
def leadingCount (c : Byte) (s : Bytes) : Nat := (s.takeWhile (· = c)).length

/-- `base58.Encode`: the base-58 digits of the integer of `b`, preceded by one `1` for every
leading zero byte of `b`. -/
def base58Encode (b : Bytes) : GoString :=
  let x := bytesToNat b
  let answer := (digitsLE 58 x x).map fun d => alphabet.getD d 0
  (answer ++ List.replicate (leadingCount 0 b) alphabetIdx0).reverse

/-- The table `b58`: the digit of a character of the alphabet, `none` for any other byte. -/
def b58 (c : Byte) : Option Nat :=
  if alphabet.indexOf c < 58 then some (alphabet.indexOf c) else none

/-- `base58.Decode`: the empty slice when a character is not in the alphabet; otherwise the
bytes of the integer the digits denote, preceded by one zero byte for every leading `1`. -/
def base58Decode (s : GoString) : Bytes :=
  match s.mapM b58 with
  | none => []
  | some digits =>
    List.replicate (leadingCount alphabetIdx0 s) 0 ++
      natToBytes (digits.foldl (fun acc d => acc * 58 + d) 0)

/-- The first four bytes of the double SHA-256 of the input. -/
def checksum (input : Bytes) : Bytes := (sha256 (sha256 input)).take 4

/-- `base58.CheckEncode`: version byte, payload and checksum, base-58 encoded. -/
def CheckEncode (input : Bytes) (version : Byte) : GoString :=
  let b := version :: input
  base58Encode (b ++ checksum b)

def ErrInvalidFormat : GoString := ascii "invalid format: version and/or checksum bytes missing"
def ErrChecksum : GoString := ascii "checksum error"

/-- `base58.CheckDecode`: the payload and the version byte. -/
def CheckDecode (input : GoString) : Except GoString (Bytes × Byte) :=
  let decoded := base58Decode input
  if decoded.length < 5 then
    .error ErrInvalidFormat
  else
    let version := decoded.headD 0
    let cksum := decoded.drop (decoded.length - 4)
    if checksum (decoded.take (decoded.length - 4)) ≠ cksum then
      .error ErrChecksum
    else
      .ok ((decoded.take (decoded.length - 4)).drop 1, version)

/-! ## Construction of a wallet -/

/-- A 32-byte array, the type `[32]byte` of a hash. -/
abbrev Hash32 := { b : Bytes // b.length = 32 }

/-- `New`: instantiates a wallet; its address is the letter `A` followed by the base-58 check
encoding of `addr` with version byte 0. -/
def New (nickname : GoString) (addr : Hash32) (privateKey publicKey salt nonce : Bytes) :
    Except GoString Wallet :=
  .ok
    { Version := 0
      Nickname := nickname
      Address := ascii "A" ++ CheckEncode addr.val Base58Version
      KeyPair :=
        { PrivateKey := privateKey
          PublicKey := publicKey
          Salt := salt
          Nonce := nonce } }

/-! ## UTF-8 (`unicode/utf8`) -/

/-- The rune `utf8.RuneError`, U+FFFD. -/
def RuneError : Nat := 0xFFFD

/-- Whether a byte is a continuation byte, `0x80 .. 0xBF`. -/
def isCont (b : Byte) : Bool := decide (0x80 ≤ b.val ∧ b.val ≤ 0xBF)

/-- The payload of a continuation byte. -/
def contBits (b : Byte) : Nat := b.val - 0x80

/-- `utf8.DecodeRune`: the first rune of the input and its width in bytes;
`(RuneError, 1)` for an invalid or incomplete encoding and `(RuneError, 0)` for no input. -/
def decodeRune : Bytes → Nat × Nat
  | [] => (RuneError, 0)
  | b0 :: rest =>
    if b0.val < 0x80 then (b0.val, 1)
    else if 0xC2 ≤ b0.val ∧ b0.val ≤ 0xDF then
      match rest with
      | b1 :: _ =>
        if isCont b1 then ((b0.val - 0xC0) * 64 + contBits b1, 2) else (RuneError, 1)
      | _ => (RuneError, 1)
    else if 0xE0 ≤ b0.val ∧ b0.val ≤ 0xEF then
      match rest with
      | b1 :: b2 :: _ =>
        let lo := if b0.val = 0xE0 then 0xA0 else 0x80
        let hi := if b0.val = 0xED then 0x9F else 0xBF
        if lo ≤ b1.val ∧ b1.val ≤ hi ∧ isCont b2 then
          ((b0.val - 0xE0) * 4096 + contBits b1 * 64 + contBits b2, 3)
        else (RuneError, 1)
      | _ => (RuneError, 1)
    else if 0xF0 ≤ b0.val ∧ b0.val ≤ 0xF4 then
      match rest with
      | b1 :: b2 :: b3 :: _ =>
        let lo := if b0.val = 0xF0 then 0x90 else 0x80
        let hi := if b0.val = 0xF4 then 0x8F else 0xBF
        if lo ≤ b1.val ∧ b1.val ≤ hi ∧ isCont b2 ∧ isCont b3 then
          ((b0.val - 0xF0) * 262144 + contBits b1 * 4096 + contBits b2 * 64 + contBits b3, 4)
        else (RuneError, 1)
      | _ => (RuneError, 1)
    else (RuneError, 1)

/-- `utf8.EncodeRune`: surrogates and values above U+10FFFF are written as U+FFFD. -/
def encodeRune (r : Nat) : Bytes :=
  if r < 0x80 then [Fin.ofNat r]
  else if r < 0x800 then [Fin.ofNat (0xC0 + r / 64), Fin.ofNat (0x80 + r % 64)]
  else if (0xD800 ≤ r ∧ r ≤ 0xDFFF) ∨ 0x10FFFF < r then [0xEF, 0xBF, 0xBD]
  else if r < 0x10000 then
    [Fin.ofNat (0xE0 + r / 4096), Fin.ofNat (0x80 + r / 64 % 64), Fin.ofNat (0x80 + r % 64)]
  else
    [Fin.ofNat (0xF0 + r / 262144), Fin.ofNat (0x80 + r / 4096 % 64),
     Fin.ofNat (0x80 + r / 64 % 64), Fin.ofNat (0x80 + r % 64)]

/-- `utf8.Valid`: the input consists of valid encodings only; `fuel` bounds the number of
runes. -/
def validUTF8 : Nat → Bytes → Bool
  | _, [] => true
  | 0, _ :: _ => false
  | fuel + 1, b :: rest =>
    let d := decodeRune (b :: rest)
    if d.1 = RuneError ∧ d.2 = 1 then false else validUTF8 fuel ((b :: rest).drop d.2)

/-- `utf8.ValidString`. -/
def ValidString (s : GoString) : Bool := validUTF8 s.length s

/-! ## Base 64 (`encoding/base64`, `StdEncoding`) -/

def encodeStd : List Byte :=
  ascii "ABCDEFGHIJKLMNOPQRSTUVWXYZabcdefghijklmnopqrstuvwxyz0123456789+/"

/-- The padding character `=`. -/
def StdPadding : Byte := 61

/-- The character of a 6-bit value. -/
def b64Char (v : Nat) : Byte := encodeStd.getD v 0

/-- `StdEncoding.EncodeToString`: three bytes become four characters; a final group of one or
two bytes is padded with `=`. -/
def b64Encode : Bytes → List Byte
  | [] => []
  | [a] => [b64Char (a.val / 4), b64Char (a.val % 4 * 16), StdPadding, StdPadding]
  | [a, b] =>
    [b64Char (a.val / 4), b64Char (a.val % 4 * 16 + b.val / 16), b64Char (b.val % 16 * 4),
      StdPadding]
  | a :: b :: c :: rest =>
    b64Char (a.val / 4) :: b64Char (a.val % 4 * 16 + b.val / 16) ::
      b64Char (b.val % 16 * 4 + c.val / 64) :: b64Char (c.val % 64) :: b64Encode rest

/-- The 6-bit value of a character of the alphabet. -/
def b64Value (c : Byte) : Option Nat :=
  if encodeStd.indexOf c < 64 then some (encodeStd.indexOf c) else none

/-- Decoding of the quanta of four characters; padding may only end the input.  Bits of the
last character that do not fit a byte are dropped (the encoding is not strict). -/
def b64DecodeQuanta : List Byte → Option Bytes
  | [] => some []
  | a :: b :: c :: d :: rest =>
    match b64Value a, b64Value b with
    | some va, some vb =>
      if c = StdPadding then
        if d = StdPadding ∧ rest = [] then some [Fin.ofNat (va * 4 + vb / 16)] else none
      else
        match b64Value c with
        | none => none
        | some vc =>
          if d = StdPadding then
            if rest = [] then
              some [Fin.ofNat (va * 4 + vb / 16), Fin.ofNat (vb % 16 * 16 + vc / 4)]
            else none
          else
            match b64Value d, b64DecodeQuanta rest with
            | some vd, some tail =>
              some (Fin.ofNat (va * 4 + vb / 16) :: Fin.ofNat (vb % 16 * 16 + vc / 4) ::
                Fin.ofNat (vc % 4 * 64 + vd) :: tail)
            | _, _ => none
    | _, _ => none
  | _ => none

/-- `StdEncoding.DecodeString`: carriage returns and line feeds are ignored. -/
def b64Decode (s : List Byte) : Option Bytes :=
  b64DecodeQuanta (s.filter fun c => c ≠ 10 ∧ c ≠ 13)

/-! ## JSON text of a wallet (`encoding/json`) -/

/-- The hexadecimal digit of a value below 16, lower case. -/
def hexDigit (v : Nat) : Byte := (ascii "0123456789abcdef").getD v 0

/-- The set `htmlSafeSet`: the ASCII characters written as they are, that is the printable
ones other than the double quote, the backslash, `<`, `>` and `&`. -/
def htmlSafe (b : Byte) : Bool :=
  decide (0x20 ≤ b.val ∧ b.val < 0x80 ∧ b ≠ 34 ∧ b ≠ 92 ∧ b ≠ 60 ∧ b ≠ 62 ∧ b ≠ 38)

/-- The escape of an ASCII character outside `htmlSafeSet`: a backslash form for the quote,
the backslash, line feed, carriage return and tab, `\u00XX` for the others. -/
def escapeASCII (b : Byte) : Bytes :=
  if b = 92 ∨ b = 34 then [92, b]
  else if b = 10 then [92, 110]
  else if b = 13 then [92, 114]
  else if b = 9 then [92, 116]
  else [92, 117, 48, 48, hexDigit (b.val / 16), hexDigit (b.val % 16)]

/-- The body of a string literal, between the quotes: safe ASCII and valid UTF-8 are copied,
an invalid byte becomes the escape of U+FFFD, and U+2028 and U+2029 are escaped; `fuel`
bounds the number of runes. -/
def escapeString : Nat → GoString → Bytes
  | _, [] => []
  | 0, _ :: _ => []
  | fuel + 1, b :: rest =>
    if b.val < 0x80 then
      (if htmlSafe b then [b] else escapeASCII b) ++ escapeString fuel rest
    else
      let d := decodeRune (b :: rest)
      if d.1 = RuneError ∧ d.2 = 1 then
        [92, 117, 102, 102, 102, 100] ++ escapeString fuel rest
      else if d.1 = 0x2028 ∨ d.1 = 0x2029 then
        [92, 117, 50, 48, 50, hexDigit (d.1 % 16)] ++ escapeString fuel ((b :: rest).drop d.2)
      else
        (b :: rest).take d.2 ++ escapeString fuel ((b :: rest).drop d.2)

/-- A string as a JSON string literal. -/
def encodeString (s : GoString) : Bytes := [34] ++ escapeString s.length s ++ [34]

/-- A byte slice as a JSON string literal: its base-64 text.  The empty list stands for the
empty slice; `decodeBytes` also reads `null`, the text of a nil slice. -/
def encodeBytes (b : Bytes) : Bytes := [34] ++ b64Encode b ++ [34]

def keyVersion : Bytes := ascii "\x7b\"Version\":"
def keyNickname : Bytes := ascii ",\"Nickname\":"
def keyAddress : Bytes := ascii ",\"Address\":"
def keyPrivateKey : Bytes := ascii ",\"KeyPair\":\x7b\"PrivateKey\":"
def keyPublicKey : Bytes := ascii ",\"PublicKey\":"
def keySalt : Bytes := ascii ",\"Salt\":"
def keyNonce : Bytes := ascii ",\"Nonce\":"
def closeObjects : Bytes := ascii "\x7d\x7d"

/-- The JSON text of a wallet: the fields in declaration order, without white space. -/
def marshalText (w : Wallet) : Bytes :=
  keyVersion ++ itoa w.Version.val ++
    keyNickname ++ encodeString w.Nickname ++
    keyAddress ++ encodeString w.Address ++
    keyPrivateKey ++ encodeBytes w.KeyPair.PrivateKey ++
    keyPublicKey ++ encodeBytes w.KeyPair.PublicKey ++
    keySalt ++ encodeBytes w.KeyPair.Salt ++
    keyNonce ++ encodeBytes w.KeyPair.Nonce ++ closeObjects

/-- `json.Marshal(w)`.  Marshalling a wallet has no error case. -/
def jsonMarshal (w : Wallet) : Except GoString Bytes := .ok (marshalText w)

/-- The value of a hexadecimal digit, in either case. -/
def hexValue (c : Byte) : Option Nat :=
  if 48 ≤ c.val ∧ c.val ≤ 57 then some (c.val - 48)
  else if 97 ≤ c.val ∧ c.val ≤ 102 then some (c.val - 87)
  else if 65 ≤ c.val ∧ c.val ≤ 70 then some (c.val - 55)
  else none

/-- `getu4`: the 16-bit value of an escape `\uXXXX` at the start of the input. -/
def getu4 : Bytes → Option Nat
  | 92 :: 117 :: h1 :: h2 :: h3 :: h4 :: _ =>
    match hexValue h1, hexValue h2, hexValue h3, hexValue h4 with
    | some a, some b, some c, some d => some (a * 4096 + b * 256 + c * 16 + d)
    | _, _, _, _ => none
  | _ => none

/-- `utf16.DecodeRune`: the rune of a surrogate pair, U+FFFD when the pair is not valid. -/
def utf16DecodeRune (r1 : Nat) (r2 : Option Nat) : Nat :=
  match r2 with
  | some r2 =>
    if 0xD800 ≤ r1 ∧ r1 < 0xDC00 ∧ 0xDC00 ≤ r2 ∧ r2 < 0xE000 then
      (r1 - 0xD800) * 1024 + (r2 - 0xDC00) + 0x10000
    else RuneError
  | none => RuneError

/-- The string a JSON string literal denotes, read from just after its opening quote up to
its closing quote, and the input after the closing quote.  Escapes are replaced, bytes that
are not valid UTF-8 become U+FFFD, control characters and unknown escapes are errors; `fuel`
bounds the number of steps. -/
def unquote : Nat → Bytes → Option (GoString × Bytes)
  | 0, _ => none
  | _ + 1, [] => none
  | fuel + 1, c :: rest =>
    if c = 34 then some ([], rest)
    else if c = 92 then
      match rest with
      | [] => none
      | e :: rest1 =>
        if e = 117 then
          match getu4 (c :: rest) with
          | none => none
          | some rr =>
            let rest2 := rest1.drop 4
            if 0xD800 ≤ rr ∧ rr < 0xE000 then
              let dec := utf16DecodeRune rr (getu4 rest2)
              if dec ≠ RuneError then
                (unquote fuel (rest2.drop 6)).map fun p => (encodeRune dec ++ p.1, p.2)
              else
                (unquote fuel rest2).map fun p => (encodeRune RuneError ++ p.1, p.2)
            else
              (unquote fuel rest2).map fun p => (encodeRune rr ++ p.1, p.2)
        else
          let plain : Option Byte :=
            if e = 34 ∨ e = 92 ∨ e = 47 then some e
            else if e = 98 then some 8
            else if e = 102 then some 12
            else if e = 110 then some 10
            else if e = 114 then some 13
            else if e = 116 then some 9
            else none
          match plain with
          | none => none
          | some b => (unquote fuel rest1).map fun p => (b :: p.1, p.2)
    else if c.val < 0x20 then none
    else if c.val < 0x80 then (unquote fuel rest).map fun p => (c :: p.1, p.2)
    else
      let d := decodeRune (c :: rest)
      (unquote fuel ((c :: rest).drop d.2)).map fun p => (encodeRune d.1 ++ p.1, p.2)

/-- A character a string literal holds as it is: printable ASCII other than the double quote
and the backslash. -/
def isPlain (c : Byte) : Prop := 0x20 ≤ c.val ∧ c.val < 0x80 ∧ c ≠ 34 ∧ c ≠ 92

instance (c : Byte) : Decidable (isPlain c) := by unfold isPlain; infer_instance

/-- The input after the literal `lit`, when the input starts with it. -/
def expect (lit input : Bytes) : Option Bytes :=
  if hasPrefix input lit then some (input.drop lit.length) else none

/-- A string value: a string literal. -/
def decodeString (input : Bytes) : Option (GoString × Bytes) :=
  match input with
  | 34 :: rest => unquote (rest.length + 1) rest
  | _ => none

/-- A `[]byte` value: `null`, or a string literal holding base-64 text. -/
def decodeBytes (input : Bytes) : Option (Bytes × Bytes) :=
  match expect (ascii "null") input with
  | some rest => some ([], rest)
  | none =>
    match decodeString input with
    | none => none
    | some (s, rest) => (b64Decode s).map fun b => (b, rest)

/-- The value of a sequence of decimal digits. -/
def digitsValue (ds : Bytes) : Nat := ds.foldl (fun acc d => acc * 10 + (d.val - 48)) 0

/-- The facts about the decimal text of a number that reading it back relies on. -/
def itoaCheck (n : Nat) : Bool :=
  (itoa n).all (fun c => decide (48 ≤ c.val) && decide (c.val ≤ 57)) && !(itoa n).isEmpty &&
    !(decide ((itoa n).length > 1) && (itoa n).head? == some 48) && digitsValue (itoa n) == n

/-- A `uint8` value: a JSON number without sign, fraction or exponent, below 256. -/
def decodeUint8 (input : Bytes) : Option (Byte × Bytes) :=
  let ds := input.takeWhile fun c => decide (48 ≤ c.val ∧ c.val ≤ 57)
  if ds = [] ∨ (ds.length > 1 ∧ ds.head? = some 48) ∨ digitsValue ds > 255 then none
  else some (Fin.ofNat (digitsValue ds), input.drop ds.length)

/-- The wallet a JSON text in the form `json.Marshal` writes denotes: the eight keys in
declaration order and no white space. -/
def parseWallet (content : Bytes) : Option Wallet := do
  let r ← expect keyVersion content
  let (version, r) ← decodeUint8 r
  let r ← expect keyNickname r
  let (nickname, r) ← decodeString r
  let r ← expect keyAddress r
  let (address, r) ← decodeString r
  let r ← expect keyPrivateKey r
  let (privateKey, r) ← decodeBytes r
  let r ← expect keyPublicKey r
  let (publicKey, r) ← decodeBytes r
  let r ← expect keySalt r
  let (salt, r) ← decodeBytes r
  let r ← expect keyNonce r
  let (nonce, r) ← decodeBytes r
  let r ← expect closeObjects r
  if r = [] then
    some
      { Version := version
        Nickname := nickname
        Address := address
        KeyPair :=
          { PrivateKey := privateKey
            PublicKey := publicKey
            Salt := salt
            Nonce := nonce } }
  else none

/-- `json.Unmarshal(content, &wallet)` on the texts in the form `json.Marshal` writes.  Texts
in another form are reported as errors here. -/
def jsonUnmarshal (content : Bytes) : Except GoString Wallet :=
  match parseWallet content with
  | some w => .ok w
  | none => .error (ascii "json: cannot unmarshal the text into a wallet")

/-! ## The file system, as the package uses it (`os`) -/

/-- An entry of the working directory: its name and what `os.ReadFile` returns for it, the
content of a readable regular file or an error (a directory, a file the process may not
read). -/
structure DirEntry where
  name : GoString
  content : Except GoString Bytes

/-- How a refused `os.WriteFile` ends: the error, and the bytes the file is left with when the
failure came after the file was created or truncated. -/
structure WriteFailure where
  err : GoString
  leftover : Option Bytes

/-- The state of the operating system the package reads and writes. -/
structure FS where
  /-- What `os.Getwd` returns. -/
  getwd : Except GoString GoString
  /-- The error of `os.ReadDir` on the working directory, when it fails. -/
  readDirError : Option GoString
  /-- The entries of the working directory. -/
  entries : List DirEntry
  /-- Whether, and how, `os.WriteFile` to a name fails. -/
  refuse : GoString → Option WriteFailure

/-- The entry of the given name, when there is one. -/
def FS.find (fs : FS) (name : GoString) : Option DirEntry :=
  fs.entries.find? fun e => decide (e.name = name)

/-- `os.ReadFile` on a name relative to the working directory. -/
def FS.ReadFile (fs : FS) (name : GoString) : Except GoString Bytes :=
  match fs.find name with
  | some e => e.content
  | none => .error (ascii "open " ++ name ++ ascii ": no such file or directory")

/-- The entries after the file `name` was given the content `data`. -/
def FS.put (fs : FS) (name : GoString) (data : Bytes) : FS :=
  { fs with entries := ⟨name, .ok data⟩ :: fs.entries.filter fun e => decide (e.name ≠ name) }

/-- `os.WriteFile(name, data, perm)`: the file is created or replaced, unless the system
refuses. -/
def FS.WriteFile (fs : FS) (name : GoString) (data : Bytes) (_perm : Nat) :
    FS × Option GoString :=
  match fs.refuse name with
  | some failure =>
    match failure.leftover with
    | some bytes => (fs.put name bytes, some failure.err)
    | none => (fs, some failure.err)
  | none => (fs.put name data, none)

/-- `os.Remove`. -/
def FS.Remove (fs : FS) (name : GoString) : FS × Option GoString :=
  match fs.find name with
  | some _ => ({ fs with entries := fs.entries.filter fun e => decide (e.name ≠ name) }, none)
  | none => (fs, some (ascii "remove " ++ name ++ ascii ": no such file or directory"))

/-! ## The wallet store -/

/-- `Persist`: stores the wallet, in JSON, in the working directory. -/
def Wallet.Persist (w : Wallet) (fs : FS) : FS × Option GoString :=
  match jsonMarshal w with
  | .error err => (fs, some (ascii "marshalling wallet: " ++ err))
  | .ok jsonified =>
    match fs.WriteFile (Filename w.Nickname) jsonified FileModeUserReadWriteOnly with
    | (fs1, some err) =>
      (fs1, some (ascii "writing wallet to '" ++ Filename w.Nickname ++ ascii ": " ++ err))
    | (fs1, none) => (fs1, none)

/-- `Load`: loads the wallet of the given nickname from the working directory. -/
def Load (fs : FS) (nickname : GoString) : Except GoString Wallet :=
  let walletName := Filename nickname
  match fs.ReadFile walletName with
  | .error err => .error (ascii "reading file '" ++ walletName ++ ascii "': " ++ err)
  | .ok content =>
    match jsonUnmarshal content with
    | .error err => .error (ascii "unmarshalling file '" ++ walletName ++ ascii "': " ++ err)
    | .ok wallet => .ok wallet

/-- `Delete`: removes the wallet file. -/
def Delete (fs : FS) (nickname : GoString) : FS × Option GoString :=
  match fs.Remove (Filename nickname) with
  | (fs1, some err) =>
    (fs1, some (ascii "deleting wallet '" ++ Filename nickname ++ ascii "': " ++ err))
  | (fs1, none) => (fs1, none)

/-! ## Generation -/

/-- What the random source gives one call of `Generate`: the result of
`ed25519.GenerateKey(nil)`, a 32-byte public key and a 64-byte private key, and the results of
the two calls of `rand.Read`, which fill 12-byte buffers. -/
structure Entropy where
  keys : Except GoString ({ b : Bytes // b.length = 32 } × { b : Bytes // b.length = 64 })
  salt : Except GoString { b : Bytes // b.length = SaltSize }
  nonce : Except GoString { b : Bytes // b.length = NonceSize }

/-- The two results of `Generate`: a wallet pointer, `none` for nil, and an error, `none`
for nil. -/
structure Generated where
  wallet : Option Wallet
  err : Option GoString
  deriving DecidableEq, Repr

/-- `Generate`: instantiates a new wallet, protects its private key and persists it.  The hash
`blake3.Sum256` and the random draws are parameters; `.error` is a panic. -/
def Generate (blake3Sum256 : Bytes → Hash32) (rnd : Entropy) (fs : FS)
    (nickname password : GoString) : FS × Except GoString Generated :=
  match rnd.keys with
  | .error err => (fs, .ok ⟨none, some (ascii "generating ed25519 keypair: " ++ err)⟩)
  | .ok (publicKey, privateKey) =>
    let addr := blake3Sum256 publicKey.val
    match rnd.salt with
    | .error err => (fs, .ok ⟨none, some (ascii "generating random salt: " ++ err)⟩)
    | .ok salt =>
      match rnd.nonce with
      | .error err => (fs, .ok ⟨none, some (ascii "generating random nonce: " ++ err)⟩)
      | .ok nonce =>
        match New nickname addr privateKey.val publicKey.val salt.val nonce.val with
        | .error err => (fs, .ok ⟨none, some (ascii "instantiating a new wallet: " ++ err)⟩)
        | .ok wallet =>
          match wallet.Protect password with
          | (_, .panic msg) => (fs, .error msg)
          | (_, .err err) =>
            (fs, .ok ⟨none, some (ascii "protecting the new wallet: " ++ err)⟩)
          | (wallet1, .ok _) =>
            match wallet1.Persist fs with
            | (fs1, some err) =>
              (fs1, .ok ⟨none, some (ascii "persisting the new wallet: " ++ err)⟩)
            | (fs1, none) => (fs1, .ok ⟨some wallet1, none⟩)

/-! ## Sample values -/

/-- A wallet with a 64-byte private key, a 32-byte public key and 12-byte salt and nonce. -/
def sampleWallet : Wallet :=
  { Version := 0
    Nickname := ascii "alice"
    Address := ascii "A"
    KeyPair :=
      { PrivateKey := List.replicate 64 7
        PublicKey := List.replicate 32 9
        Salt := List.replicate 12 1
        Nonce := List.replicate 12 2 } }

/-- A wallet whose private key is one byte longer than the longest message GCM seals. -/
def hugeKeyWallet : Wallet :=
  sampleWallet.setPrivateKey (List.replicate (gcmMaxPlaintext + 1) 0)

/-- A wallet whose private key field is shorter than an authentication tag. -/
def shortSealWallet : Wallet :=
  sampleWallet.setPrivateKey [1, 2, 3]

/-- Two different 32-byte hashes. -/
def hashA : Hash32 := ⟨List.replicate 32 1, rfl⟩

def hashB : Hash32 := ⟨List.replicate 32 2, rfl⟩

/-- A stand-in for `blake3.Sum256` in examples: any function to 32-byte hashes will do. -/
def sampleHash (b : Bytes) : Hash32 := ⟨(sha256 b ++ List.replicate 32 0).take 32, by simp⟩

/-- Random draws that all succeed. -/
def sampleEntropy : Entropy :=
  { keys := .ok (⟨List.replicate 32 9, rfl⟩, ⟨List.replicate 64 7, rfl⟩)
    salt := .ok ⟨List.replicate 12 1, rfl⟩
    nonce := .ok ⟨List.replicate 12 2, rfl⟩ }

/-- A working directory that already holds a file `wallet_alice.json` and in which every
write is refused. -/
def readOnlyFS : FS :=
  { getwd := .ok (ascii "/home/user")
    readDirError := none
    entries := [⟨ascii "wallet_alice.json", .ok (ascii "old")⟩]
    refuse := fun _ => some ⟨ascii "permission denied", none⟩ }

/-- An empty working directory in which every write succeeds. -/
def emptyFS : FS :=
  { getwd := .ok (ascii "/home/user")
    readDirError := none
    entries := []
    refuse := fun _ => none }

/-- A wallet whose nickname is the single byte `0xFF`, which is not valid UTF-8. -/
def badNickWallet : Wallet :=
  { Version := 0
    Nickname := [0xFF]
    Address := ascii "A"
    KeyPair := { PrivateKey := [1], PublicKey := [2], Salt := [3], Nonce := [4] } }

/-- What `Load` returns for `badNickWallet`: the nickname has become U+FFFD. -/
def badNickLoaded : Wallet :=
  { badNickWallet with Nickname := [0xEF, 0xBF, 0xBD] }

theorem ascii_wallet : ascii "wallet_" = [119, 97, 108, 108, 101, 116, 95] := by decide

theorem ascii_json : ascii ".json" = [46, 106, 115, 111, 110] := by decide

theorem isWalletFileName_Filename (n : GoString) : isWalletFileName (Filename n) = true := by
  simp [isWalletFileName, hasPrefix, hasSuffix, Filename, ascii_wallet, ascii_json]

theorem wallet_json_length (name : GoString) (h1 : 7 ≤ name.length)
    (h2 : name.take 7 = [119, 97, 108, 108, 101, 116, 95])
    (h4 : name.drop (name.length - 5) = [46, 106, 115, 111, 110]) : 12 ≤ name.length := by
  by_contra hc
  have hl : name.length = 7 ∨ name.length = 8 ∨ name.length = 9 ∨ name.length = 10 ∨
      name.length = 11 := by omega
  rcases name with _ | ⟨a, _ | ⟨b, _ | ⟨c, _ | ⟨d, _ | ⟨e, _ | ⟨f, _ | ⟨g, _ | ⟨h, _ | ⟨i, _ |
    ⟨j, _ | ⟨k, _ | ⟨l, t⟩⟩⟩⟩⟩⟩⟩⟩⟩⟩⟩⟩ <;> simp at h1 hc hl h2 h4 <;>
    first
    | omega
    | (obtain ⟨_, _, _, _, _, _, hg⟩ := h2; simp [hg] at h4)

theorem isWalletFileName_split (name : GoString) (h : isWalletFileName name = true) :
    ∃ n, name = Filename n := by
  simp only [isWalletFileName, hasPrefix, hasSuffix, ascii_wallet, ascii_json,
    Bool.and_eq_true, decide_eq_true_eq, List.length_cons, List.length_nil] at h
  obtain ⟨⟨h1, h2⟩, h3, h4⟩ := h
  have hlen : 12 ≤ name.length := wallet_json_length name h1 h2 h4
  refine ⟨(name.drop 7).take (name.length - 12), ?_⟩
  have e1 : name = name.take 7 ++ name.drop 7 := (List.take_append_drop 7 name).symm
  have e2 : name.drop 7 = (name.drop 7).take (name.length - 12) ++
      (name.drop 7).drop (name.length - 12) := (List.take_append_drop _ _).symm
  have e3 : (name.drop 7).drop (name.length - 12) = name.drop (name.length - 5) := by
    rw [List.drop_drop]; congr 1; omega
  simp only [Filename, ascii_wallet, ascii_json]
  rw [e3, h4] at e2
  rw [h2] at e1
  rw [List.append_assoc, ← e2]; exact e1

/-- C10: a file name passes the test of `LoadAll` exactly when it is `Filename n`
for some nickname `n`; `Filename "alice"` is `wallet_alice.json` and is selected,
`notawallet.txt` is not. -/
theorem C10_filename_convention :
    (∀ name : GoString, isWalletFileName name = true ↔ ∃ n, name = Filename n) ∧
    Filename (ascii "alice") = ascii "wallet_alice.json" ∧
    isWalletFileName (Filename (ascii "alice")) = true ∧
    isWalletFileName (ascii "notawallet.txt") = false := by
  refine ⟨fun name => ⟨isWalletFileName_split name, ?_⟩, by decide, by decide, by decide⟩
  rintro ⟨n, rfl⟩
  exact isWalletFileName_Filename n
/-! ## Sizes of the derived key and of cipher blocks -/

theorem length_be32Bytes (x : Nat) : (be32Bytes x).length = 4 := rfl

theorem length_sha256 (m : Bytes) : (sha256 m).length = 32 := by
  simp [sha256, length_be32Bytes]

theorem length_hmacSHA256 (key msg : Bytes) : (hmacSHA256 key msg).length = 32 := by
  simp [hmacSHA256, length_sha256]

theorem length_xorBytes (x y : Bytes) : (xorBytes x y).length = min x.length y.length := by
  simp [xorBytes]

theorem length_pbkdf2Iter (prf : Bytes → Bytes) (hprf : ∀ x, (prf x).length = 32) (n : Nat) :
    ∀ t u : Bytes, t.length = 32 → (pbkdf2Iter prf n (t, u)).1.length = 32 := by
  induction n with
  | zero => intro t u ht; simpa [pbkdf2Iter] using ht
  | succ n ih =>
    intro t u ht
    simp only [pbkdf2Iter]
    apply ih
    simp [xorInto, hprf]

theorem length_pbkdf2Key (password salt : Bytes) :
    (pbkdf2Key password salt PBKDF2NbRound SecretKeyLength).length = 32 := by
  have hb : (pbkdf2Block (hmacSHA256 password) salt PBKDF2NbRound 1).length = 32 :=
    length_pbkdf2Iter _ (length_hmacSHA256 password) _ _ _ (length_hmacSHA256 password _)
  have hr : List.range ((SecretKeyLength + 32 - 1) / 32) = [0] := by decide
  simp only [pbkdf2Key, hr, List.map_cons, List.map_nil, List.flatten_cons, List.flatten_nil,
    List.append_nil, List.length_take, hb]
  decide

theorem NewCipher_of_length (key : Bytes) (h : key.length = 32) :
    ∃ block, NewCipher key = .ok block := by
  unfold NewCipher
  rw [if_pos (Or.inr (Or.inr h))]
  exact ⟨_, rfl⟩

/-- The derived key is 32 bytes long, so `aead` returns a cipher and no error. -/
theorem aead_ok (password salt : Bytes) : ∃ g, aead password salt = .ok g := by
  have h := length_pbkdf2Key password salt
  unfold aead
  generalize pbkdf2Key password salt PBKDF2NbRound SecretKeyLength = key at h
  obtain ⟨block, hb⟩ := NewCipher_of_length key h
  refine ⟨⟨block⟩, ?_⟩
  simp only [hb, NewGCM, AESCipher.BlockSize, ne_eq, not_true_eq_false, if_false]

theorem length_Encrypt (c : AESCipher) (src : Bytes) : (c.Encrypt src).length = 16 := by
  simp [AESCipher.Encrypt, addRoundKey]

theorem length_natBlock (x : Nat) : (natBlock x).length = 16 := by
  simp [natBlock]

theorem length_auth (g : GCM) (nonce ciphertext data : Bytes) :
    (g.auth nonce ciphertext data).length = 16 := by
  simp [GCM.auth, length_xorBytes, length_natBlock, length_Encrypt]

/-! ## Counter mode is an involution -/

theorem byte_xor_cancel (a k : Byte) : (a ^^^ k) ^^^ k = a := by
  apply Fin.ext
  have ha : a.val < 256 := a.isLt
  have hk : k.val < 256 := k.isLt
  have h1 : a.val ^^^ k.val < 256 := Nat.xor_lt_two_pow (n := 8) ha hk
  show ((a.val ^^^ k.val) % 256 ^^^ k.val) % 256 = a.val
  rw [Nat.mod_eq_of_lt h1, Nat.xor_assoc, Nat.xor_self, Nat.xor_zero, Nat.mod_eq_of_lt ha]

theorem xorBytes_cancel : ∀ (x k : Bytes), x.length ≤ k.length →
    xorBytes (xorBytes x k) k = x
  | [], _, _ => by simp [xorBytes]
  | a :: x, [], h => by simp at h
  | a :: x, b :: k, h => by
    have ih := xorBytes_cancel x k (by simpa using h)
    simp only [xorBytes] at ih ⊢
    simp [List.zipWith, byte_xor_cancel, ih]

theorem counterCrypt_nil (c : AESCipher) (fuel : Nat) (counter : Bytes) :
    counterCrypt c fuel [] counter = [] := by
  cases fuel <;> rfl

theorem counterCrypt_succ (c : AESCipher) (fuel : Nat) (input counter : Bytes) :
    counterCrypt c (fuel + 1) input counter =
      xorBytes (input.take 16) (c.Encrypt counter) ++
        counterCrypt c fuel (input.drop 16) (gcmInc32 counter) := by
  cases input with
  | nil => simp [counterCrypt, counterCrypt_nil, xorBytes]
  | cons a x => rfl

theorem counterCrypt_length (c : AESCipher) : ∀ (fuel : Nat) (input counter : Bytes),
    input.length ≤ fuel → (counterCrypt c fuel input counter).length = input.length := by
  intro fuel
  induction fuel with
  | zero =>
    intro input counter h
    have : input = [] := List.length_eq_zero.mp (by omega)
    subst this; rfl
  | succ fuel ih =>
    intro input counter h
    rw [counterCrypt_succ, List.length_append, ih _ _ (by simp; omega), length_xorBytes,
      length_Encrypt]
    simp
    omega

theorem take_drop_blocks (a b : Bytes) (n : Nat) (ha : a.length = min 16 n)
    (hb : b.length = n - 16) : (a ++ b).take 16 = a ∧ (a ++ b).drop 16 = b := by
  by_cases h : 16 ≤ n
  · have ha16 : a.length = 16 := by omega
    constructor
    · rw [List.take_append_eq_append_take, ha16]; simp [List.take_of_length_le, ha16]
    · rw [List.drop_append_eq_append_drop, ha16]; simp [List.drop_of_length_le, ha16]
  · have hb0 : b = [] := List.length_eq_zero.mp (by omega)
    subst hb0
    constructor
    · simpa using List.take_of_length_le (show a.length ≤ 16 by omega)
    · simpa using (show a.length ≤ 16 by omega)

/-- Running the counter mode twice from the same counter gives back the input. -/
theorem counterCrypt_cancel (c : AESCipher) : ∀ (f1 f2 : Nat) (input counter : Bytes),
    input.length ≤ f1 → input.length ≤ f2 →
    counterCrypt c f2 (counterCrypt c f1 input counter) counter = input := by
  intro f1
  induction f1 with
  | zero =>
    intro f2 input counter h1 _
    have : input = [] := List.length_eq_zero.mp (by omega)
    subst this
    simp [counterCrypt, counterCrypt_nil]
  | succ f1 ih =>
    intro f2 input counter h1 h2
    cases f2 with
    | zero =>
      have : input = [] := List.length_eq_zero.mp (by omega)
      subst this
      simp [counterCrypt]
    | succ f2 =>
      have hd : (input.drop 16).length ≤ f1 := by simp; omega
      have hd2 : (input.drop 16).length ≤ f2 := by simp; omega
      have hA : (xorBytes (input.take 16) (c.Encrypt counter)).length = min 16 input.length := by
        rw [length_xorBytes, length_Encrypt]; simp
      have hB : (counterCrypt c f1 (input.drop 16) (gcmInc32 counter)).length =
          input.length - 16 := by
        rw [counterCrypt_length c f1 _ _ hd]; simp
      obtain ⟨ht, hdr⟩ := take_drop_blocks _ _ _ hA hB
      rw [counterCrypt_succ c f1, counterCrypt_succ c f2, ht, hdr, ih f2 _ _ hd hd2,
        xorBytes_cancel _ _ (by rw [length_Encrypt]; simp)]
      exact List.take_append_drop 16 input

theorem crypt_length (g : GCM) (nonce input : Bytes) :
    (g.crypt nonce input).length = input.length :=
  counterCrypt_length _ _ _ _ (le_refl _)

theorem crypt_cancel (g : GCM) (nonce input : Bytes) :
    g.crypt nonce (g.crypt nonce input) = input := by
  unfold GCM.crypt
  exact counterCrypt_cancel _ _ _ _ _ (le_refl _) (by rw [counterCrypt_length _ _ _ _ (le_refl _)])

/-- Opening what `Seal` returned, with the same nonce and data, gives the plaintext. -/
theorem Open_Seal (g : GCM) (nonce plaintext data ct : Bytes)
    (h : g.Seal nonce plaintext data = .ok ct) : g.Open nonce ct data = .ok plaintext := by
  unfold GCM.Seal at h
  split at h
  · cases h
  · split at h
    · cases h
    · rename_i hn hl
      simp only [Except.ok.injEq] at h
      subst h
      have hlen : (g.crypt nonce plaintext ++ g.auth nonce (g.crypt nonce plaintext) data).length =
          plaintext.length + 16 := by
        rw [List.length_append, crypt_length, length_auth]
      unfold GCM.Open
      rw [if_neg hn, hlen]
      have e1 : plaintext.length + 16 - gcmTagSize = (g.crypt nonce plaintext).length := by
        rw [crypt_length]; simp [gcmTagSize]
      rw [if_neg (by simp [gcmTagSize]), if_neg (by simp [gcmTagSize]; omega), e1]
      simp [crypt_cancel]

theorem Seal_ok (g : GCM) (nonce plaintext data : Bytes) (hn : nonce.length = 12)
    (hl : plaintext.length ≤ gcmMaxPlaintext) :
    g.Seal nonce plaintext data =
      .ok (g.crypt nonce plaintext ++ g.auth nonce (g.crypt nonce plaintext) data) := by
  unfold GCM.Seal
  rw [if_neg (by simp [gcmStandardNonceSize, hn]), if_neg (by omega)]

/-! ## Protect and Unprotect -/

@[simp] theorem setPrivateKey_KeyPair_Salt (w : Wallet) (pk : Bytes) :
    (w.setPrivateKey pk).KeyPair.Salt = w.KeyPair.Salt := rfl

@[simp] theorem setPrivateKey_KeyPair_Nonce (w : Wallet) (pk : Bytes) :
    (w.setPrivateKey pk).KeyPair.Nonce = w.KeyPair.Nonce := rfl

@[simp] theorem setPrivateKey_KeyPair_PrivateKey (w : Wallet) (pk : Bytes) :
    (w.setPrivateKey pk).KeyPair.PrivateKey = pk := rfl

@[simp] theorem setPrivateKey_KeyPair_PublicKey (w : Wallet) (pk : Bytes) :
    (w.setPrivateKey pk).KeyPair.PublicKey = w.KeyPair.PublicKey := rfl

@[simp] theorem setPrivateKey_Version (w : Wallet) (pk : Bytes) :
    (w.setPrivateKey pk).Version = w.Version := rfl

@[simp] theorem setPrivateKey_Nickname (w : Wallet) (pk : Bytes) :
    (w.setPrivateKey pk).Nickname = w.Nickname := rfl

@[simp] theorem setPrivateKey_Address (w : Wallet) (pk : Bytes) :
    (w.setPrivateKey pk).Address = w.Address := rfl

theorem setPrivateKey_setPrivateKey (w : Wallet) (pk : Bytes) :
    (w.setPrivateKey pk).setPrivateKey w.KeyPair.PrivateKey = w := rfl

theorem Protect_of_aead (w : Wallet) (pw : GoString) (g : GCM)
    (hg : aead pw w.KeyPair.Salt = .ok g) :
    w.Protect pw =
      match g.Seal w.KeyPair.Nonce w.KeyPair.PrivateKey [] with
      | .error msg => (w, .panic msg)
      | .ok ct => (w.setPrivateKey ct, .ok ()) := by
  unfold Wallet.Protect
  rw [hg]

theorem Unprotect_of_aead (w : Wallet) (pw : GoString) (g : GCM)
    (hg : aead pw w.KeyPair.Salt = .ok g) :
    w.Unprotect pw =
      match g.Open w.KeyPair.Nonce w.KeyPair.PrivateKey [] with
      | .panic msg => (w, .panic msg)
      | .err err => (w, .err (ascii "opening the private key seal: " ++ err))
      | .ok pk => (w.setPrivateKey pk, .ok ()) := by
  unfold Wallet.Unprotect
  rw [hg]

theorem Protect_ok (w : Wallet) (pw : GoString) (g : GCM)
    (hg : aead pw w.KeyPair.Salt = .ok g)
    (hn : w.KeyPair.Nonce.length = 12) (hl : w.KeyPair.PrivateKey.length ≤ gcmMaxPlaintext) :
    w.Protect pw = (w.setPrivateKey (sealOf g w), .ok ()) := by
  rw [Protect_of_aead w pw g hg, Seal_ok g _ _ _ hn hl]
  rfl

/-- Sealing with one cipher and opening with the same cipher restores the wallet. -/
theorem Unprotect_Protect_of_aead (w : Wallet) (pw1 pw2 : GoString) (g : GCM)
    (h1 : aead pw1 w.KeyPair.Salt = .ok g) (h2 : aead pw2 w.KeyPair.Salt = .ok g)
    (hn : w.KeyPair.Nonce.length = 12) (hl : w.KeyPair.PrivateKey.length ≤ gcmMaxPlaintext) :
    (w.Protect pw1).2 = .ok () ∧ ((w.Protect pw1).1.Unprotect pw2) = (w, .ok ()) := by
  have ho := Open_Seal g _ _ _ _ (Seal_ok g w.KeyPair.Nonce w.KeyPair.PrivateKey [] hn hl)
  rw [Protect_ok w pw1 g h1 hn hl]
  refine ⟨rfl, ?_⟩
  rw [Unprotect_of_aead (w.setPrivateKey (sealOf g w)) pw2 g h2]
  simp only [setPrivateKey_KeyPair_Nonce, setPrivateKey_KeyPair_PrivateKey, sealOf, ho,
    setPrivateKey_setPrivateKey]

/-! ## Passwords with the same HMAC key block -/

/-- A private key longer than GCM accepts makes `Seal`, and with it `Protect`, panic. -/
theorem Protect_too_large (w : Wallet) (pw : GoString) (hn : w.KeyPair.Nonce.length = 12)
    (hl : gcmMaxPlaintext < w.KeyPair.PrivateKey.length) :
    w.Protect pw = (w, .panic (ascii "crypto/cipher: message too large for GCM")) := by
  obtain ⟨g, hg⟩ := aead_ok pw w.KeyPair.Salt
  rw [Protect_of_aead w pw g hg]
  unfold GCM.Seal
  rw [if_neg (by simp [gcmStandardNonceSize, hn]), if_pos hl]

theorem hugeKeyWallet_key :
    hugeKeyWallet.KeyPair.PrivateKey = List.replicate (gcmMaxPlaintext + 1) 0 := rfl

theorem hugeKeyWallet_length :
    hugeKeyWallet.KeyPair.PrivateKey.length = gcmMaxPlaintext + 1 :=
  (congrArg List.length hugeKeyWallet_key).trans (List.length_replicate _ _)

/-! ## Protect and Unprotect: round trip, failure and frame -/

/-- C1 (as amended): for every wallet with a 12-byte nonce and a private key no longer than
the longest message GCM seals, every salt and every password, `Protect` and then `Unprotect`
with the same password both succeed and restore the wallet, in particular its private key. -/
theorem C1_protect_unprotect_roundtrip (w : Wallet) (pw : GoString)
    (hn : w.KeyPair.Nonce.length = 12)
    (hl : w.KeyPair.PrivateKey.length ≤ gcmMaxPlaintext) :
    (w.Protect pw).2 = .ok () ∧
    ((w.Protect pw).1.Unprotect pw).2 = .ok () ∧
    ((w.Protect pw).1.Unprotect pw).1.KeyPair.PrivateKey = w.KeyPair.PrivateKey ∧
    ((w.Protect pw).1.Unprotect pw).1 = w := by
  obtain ⟨g, hg⟩ := aead_ok pw w.KeyPair.Salt
  obtain ⟨h1, h2⟩ := Unprotect_Protect_of_aead w pw pw g hg hg hn hl
  rw [h2]
  exact ⟨h1, rfl, rfl, rfl⟩

/-- C1, witness: the sample wallet, with its 64-byte key, under the password `pw`. -/
theorem C1_witness :
    (sampleWallet.Protect (ascii "pw")).2 = .ok () ∧
    ((sampleWallet.Protect (ascii "pw")).1.Unprotect (ascii "pw")).2 = .ok () ∧
    ((sampleWallet.Protect (ascii "pw")).1.Unprotect (ascii "pw")).1.KeyPair.PrivateKey =
      sampleWallet.KeyPair.PrivateKey ∧
    ((sampleWallet.Protect (ascii "pw")).1.Unprotect (ascii "pw")).1 = sampleWallet :=
  C1_protect_unprotect_roundtrip sampleWallet (ascii "pw") (by decide)
    (by simp [sampleWallet, gcmMaxPlaintext])

/-- C1, counterexample: a wallet with a 12-byte nonce whose private key is longer than GCM
accepts; `Protect` does not succeed, `Seal` panics. -/
theorem C1_counterexample :
    hugeKeyWallet.KeyPair.Nonce.length = 12 ∧
    hugeKeyWallet.Protect (ascii "pw") =
      (hugeKeyWallet, .panic (ascii "crypto/cipher: message too large for GCM")) :=
  ⟨by decide, Protect_too_large hugeKeyWallet (ascii "pw") (by decide)
    (Nat.lt_of_lt_of_eq (Nat.lt_succ_self _) hugeKeyWallet_length.symm)⟩

/-- C2: when opening the seal over the private key fails, `Unprotect` returns an error that
wraps the failure and leaves every field of the wallet, the private key included, as it was. -/
theorem C2_unprotect_failure_keeps_wallet (w : Wallet) (pw : GoString) (g : GCM) (e : GoString)
    (hg : aead pw w.KeyPair.Salt = .ok g)
    (ho : g.Open w.KeyPair.Nonce w.KeyPair.PrivateKey [] = .err e) :
    w.Unprotect pw = (w, .err (ascii "opening the private key seal: " ++ e)) := by
  rw [Unprotect_of_aead w pw g hg, ho]

/-- C2, witness: a wallet whose private key field is too short to hold a tag. -/
theorem C2_witness :
    shortSealWallet.Unprotect (ascii "pw") =
      (shortSealWallet, .err (ascii "opening the private key seal: " ++ errOpen)) := by
  obtain ⟨g, hg⟩ := aead_ok (ascii "pw") shortSealWallet.KeyPair.Salt
  have ho : g.Open shortSealWallet.KeyPair.Nonce shortSealWallet.KeyPair.PrivateKey [] =
      .err errOpen := rfl
  exact C2_unprotect_failure_keeps_wallet shortSealWallet (ascii "pw") g errOpen hg ho

/-- C9: whether they succeed, fail or panic, `Protect` and `Unprotect` leave the salt, the
nonce, the public key, the address, the nickname and the version as they were. -/
theorem C9_protect_unprotect_frame (w : Wallet) (pw : GoString) :
    ((w.Protect pw).1.KeyPair.Salt = w.KeyPair.Salt ∧
      (w.Protect pw).1.KeyPair.Nonce = w.KeyPair.Nonce ∧
      (w.Protect pw).1.KeyPair.PublicKey = w.KeyPair.PublicKey ∧
      (w.Protect pw).1.Address = w.Address ∧
      (w.Protect pw).1.Nickname = w.Nickname ∧
      (w.Protect pw).1.Version = w.Version) ∧
    ((w.Unprotect pw).1.KeyPair.Salt = w.KeyPair.Salt ∧
      (w.Unprotect pw).1.KeyPair.Nonce = w.KeyPair.Nonce ∧
      (w.Unprotect pw).1.KeyPair.PublicKey = w.KeyPair.PublicKey ∧
      (w.Unprotect pw).1.Address = w.Address ∧
      (w.Unprotect pw).1.Nickname = w.Nickname ∧
      (w.Unprotect pw).1.Version = w.Version) := by
  obtain ⟨g, hg⟩ := aead_ok pw w.KeyPair.Salt
  rw [Protect_of_aead w pw g hg, Unprotect_of_aead w pw g hg]
  constructor
  · cases g.Seal w.KeyPair.Nonce w.KeyPair.PrivateKey [] <;> simp
  · cases g.Open w.KeyPair.Nonce w.KeyPair.PrivateKey [] <;> simp


/-! ## Base-58 check encoding round trip -/

theorem digitsLE_eq_digits (radix : Nat) (hr : 1 < radix) :
    ∀ fuel x : Nat, x ≤ fuel → digitsLE radix fuel x = Nat.digits radix x := by
  intro fuel
  induction fuel with
  | zero =>
    intro x hx
    have : x = 0 := by omega
    subst this
    simp [digitsLE]
  | succ fuel ih =>
    intro x hx
    unfold digitsLE
    by_cases h0 : x = 0
    · subst h0; simp
    · rw [if_neg h0, Nat.digits_def' hr (Nat.pos_of_ne_zero h0), ih]
      have : x / radix < x := Nat.div_lt_self (Nat.pos_of_ne_zero h0) hr
      omega

theorem bytesToNat_append_singleton (b : Bytes) (a : Byte) :
    bytesToNat (b ++ [a]) = bytesToNat b * 256 + a.val := by
  simp [bytesToNat, List.foldl_append]

theorem bytesToNat_eq_ofDigits (b : Bytes) :
    bytesToNat b = Nat.ofDigits 256 (b.reverse.map Fin.val) := by
  induction b using List.reverseRecOn with
  | nil => rfl
  | append_singleton b a ih =>
    rw [bytesToNat_append_singleton, ih]
    simp [Nat.ofDigits_cons]
    ring

theorem foldl58_eq_ofDigits (ds : List Nat) :
    ds.foldl (fun acc d => acc * 58 + d) 0 = Nat.ofDigits 58 ds.reverse := by
  induction ds using List.reverseRecOn with
  | nil => rfl
  | append_singleton ds d ih =>
    rw [List.foldl_append, List.foldl_cons, List.foldl_nil, ih]
    simp [Nat.ofDigits_cons]
    ring

theorem bytesToNat_replicate_zero (k : Nat) (r : Bytes) :
    bytesToNat (List.replicate k 0 ++ r) = bytesToNat r := by
  induction k with
  | zero => simp
  | succ k ih =>
    rw [List.replicate_succ, List.cons_append]
    simp only [bytesToNat, List.foldl_cons] at ih ⊢
    simpa using ih

theorem byte_ofNat_val (x : Byte) : (Fin.ofNat x.val : Byte) = x :=
  Fin.ext (Nat.mod_eq_of_lt x.isLt)

/-- `natToBytes` inverts `bytesToNat` on sequences without a leading zero byte. -/
theorem natToBytes_bytesToNat (r : Bytes) (h : ∀ a t, r = a :: t → a ≠ 0) :
    natToBytes (bytesToNat r) = r := by
  unfold natToBytes
  rw [digitsLE_eq_digits 256 (by decide) _ _ (le_refl _), bytesToNat_eq_ofDigits,
    Nat.digits_ofDigits 256 (by decide)]
  · simp [List.map_reverse, Function.comp_def, byte_ofNat_val]
  · intro l hl
    simp only [List.mem_map, List.mem_reverse] at hl
    obtain ⟨a, _, rfl⟩ := hl
    exact a.isLt
  · intro hne
    cases r with
    | nil => simp at hne
    | cons a t =>
      have ha := h a t rfl
      simp only [List.reverse_cons, List.map_append, List.map_cons, List.map_nil,
        List.getLast_append_singleton]
      intro hz
      exact ha (Fin.ext hz)

/-- Every byte sequence is some zero bytes followed by a sequence that does not start with a
zero byte. -/
theorem split_leading_zeros (b : Bytes) :
    ∃ r : Bytes, b = List.replicate (leadingCount 0 b) 0 ++ r ∧
      (∀ a t, r = a :: t → a ≠ 0) ∧ leadingCount 0 r = 0 := by
  induction b with
  | nil => exact ⟨[], by simp [leadingCount], by simp, by simp [leadingCount]⟩
  | cons a t ih =>
    by_cases ha : a = 0
    · obtain ⟨r, hr, hr2, hr3⟩ := ih
      refine ⟨r, ?_, hr2, hr3⟩
      subst ha
      have : leadingCount 0 ((0 : Byte) :: t) = leadingCount 0 t + 1 := by
        simp [leadingCount, List.takeWhile]
      rw [this, List.replicate_succ, List.cons_append, ← hr]
    · refine ⟨a :: t, ?_, ?_, ?_⟩
      · simp [leadingCount, List.takeWhile, ha]
      · intro a' t' h; cases h; exact ha
      · simp [leadingCount, List.takeWhile, ha]

theorem leadingCount_replicate_append (c : Byte) (k : Nat) (r : Bytes)
    (h : leadingCount c r = 0) : leadingCount c (List.replicate k c ++ r) = k := by
  induction k with
  | zero => simpa using h
  | succ k ih =>
    rw [List.replicate_succ, List.cons_append]
    simp only [leadingCount, List.takeWhile, decide_True, List.length_cons] at ih ⊢
    omega

theorem alphabet_getD_index : ∀ d : Fin 58, b58 (alphabet.getD d.val 0) = some d.val := by
  decide

theorem alphabet_getD_ne_idx0 : ∀ d : Fin 58, d.val ≠ 0 → alphabet.getD d.val 0 ≠ alphabetIdx0 := by
  decide

theorem b58_idx0 : b58 alphabetIdx0 = some 0 := by decide

theorem mapM_b58_digits (ds : List Nat) (h : ∀ d ∈ ds, d < 58) :
    (ds.map fun d => alphabet.getD d 0).mapM b58 = some ds := by
  induction ds with
  | nil => rfl
  | cons d ds ih =>
    have hd : d < 58 := h d (List.mem_cons_self _ _)
    have h1 := alphabet_getD_index ⟨d, hd⟩
    simp only [] at h1
    simp only [List.map_cons, List.mapM_cons, h1, ih (fun x hx => h x (List.mem_cons_of_mem _ hx))]
    rfl

theorem mapM_b58_replicate (k : Nat) :
    (List.replicate k alphabetIdx0).mapM b58 = some (List.replicate k 0) := by
  induction k with
  | zero => rfl
  | succ k ih =>
    simp only [List.replicate_succ, List.mapM_cons, b58_idx0, ih]
    rfl

theorem mapM_b58_append (s t : GoString) (ds dt : List Nat) (hs : s.mapM b58 = some ds)
    (ht : t.mapM b58 = some dt) : (s ++ t).mapM b58 = some (ds ++ dt) := by
  simp only [List.mapM_append, hs, ht]
  rfl

theorem ofDigits_replicate_zero (radix k : Nat) :
    Nat.ofDigits radix (List.replicate k 0) = 0 := by
  induction k with
  | zero => rfl
  | succ k ih => simp [List.replicate_succ, Nat.ofDigits_cons, ih]

theorem leadingCount_digits (x : Nat) :
    leadingCount alphabetIdx0 ((Nat.digits 58 x).reverse.map fun d => alphabet.getD d 0) = 0 := by
  by_cases hx : x = 0
  · subst hx; simp [leadingCount]
  · have hne : Nat.digits 58 x ≠ [] := Nat.digits_ne_nil_iff_ne_zero.mpr hx
    have hlast := Nat.getLast_digit_ne_zero 58 hx
    have hlt : (Nat.digits 58 x).getLast hne < 58 :=
      Nat.digits_lt_base (by decide) (List.getLast_mem hne)
    obtain ⟨ds, d, hd⟩ : ∃ ds d, Nat.digits 58 x = ds ++ [d] :=
      ⟨_, _, (List.dropLast_append_getLast hne).symm⟩
    simp only [hd, List.getLast_append_singleton] at hlast hlt
    have h := alphabet_getD_ne_idx0 ⟨d, hlt⟩ hlast
    have h2 : decide (alphabet[d]?.getD 0 = alphabetIdx0) = false := by
      simpa [List.getD_eq_getElem?_getD] using h
    simp [hd, leadingCount, List.takeWhile, h2]

theorem base58_decode_encode_aux (k : Nat) (r : Bytes) (hr : ∀ a t, r = a :: t → a ≠ 0)
    (hr0 : leadingCount 0 r = 0) :
    base58Decode (base58Encode (List.replicate k 0 ++ r)) = List.replicate k 0 ++ r := by
  have hx : bytesToNat (List.replicate k 0 ++ r) = bytesToNat r := bytesToNat_replicate_zero k r
  have hk : leadingCount 0 (List.replicate k 0 ++ r) = k :=
    leadingCount_replicate_append 0 k r hr0
  have henc : base58Encode (List.replicate k 0 ++ r) =
      List.replicate k alphabetIdx0 ++
        (Nat.digits 58 (bytesToNat r)).reverse.map fun d => alphabet.getD d 0 := by
    unfold base58Encode
    simp only [hx, hk, digitsLE_eq_digits 58 (by decide) _ _ (le_refl _), List.reverse_append,
      List.reverse_replicate, List.map_reverse]
  have hm : (List.replicate k alphabetIdx0 ++
      (Nat.digits 58 (bytesToNat r)).reverse.map fun d => alphabet.getD d 0).mapM b58 =
      some (List.replicate k 0 ++ (Nat.digits 58 (bytesToNat r)).reverse) :=
    mapM_b58_append _ _ _ _ (mapM_b58_replicate k)
      (mapM_b58_digits _ (fun d hd => Nat.digits_lt_base (by decide) (List.mem_reverse.mp hd)))
  have hl : leadingCount alphabetIdx0 (List.replicate k alphabetIdx0 ++
      (Nat.digits 58 (bytesToNat r)).reverse.map fun d => alphabet.getD d 0) = k :=
    leadingCount_replicate_append _ k _ (leadingCount_digits _)
  rw [henc]
  unfold base58Decode
  rw [hm]
  simp only [hl, foldl58_eq_ofDigits, List.reverse_append, List.reverse_reverse,
    List.reverse_replicate, Nat.ofDigits_append, ofDigits_replicate_zero, Nat.ofDigits_digits,
    Nat.mul_zero, Nat.add_zero, natToBytes_bytesToNat r hr]

/-- Decoding inverts encoding. -/
theorem base58Decode_base58Encode (b : Bytes) : base58Decode (base58Encode b) = b := by
  obtain ⟨r, hb, hr, hr0⟩ := split_leading_zeros b
  have h := base58_decode_encode_aux (leadingCount 0 b) r hr hr0
  rw [← hb] at h
  exact h

theorem length_checksum (b : Bytes) : (checksum b).length = 4 := by
  simp [checksum, length_sha256]

/-- Check-decoding inverts check-encoding: it returns the payload and the version byte. -/
theorem CheckDecode_CheckEncode (input : Bytes) (version : Byte) :
    CheckDecode (CheckEncode input version) = .ok (input, version) := by
  unfold CheckDecode CheckEncode
  simp only [base58Decode_base58Encode]
  have hlen : (version :: input ++ checksum (version :: input)).length = input.length + 5 := by
    simp [length_checksum]
  have h4 : (version :: input ++ checksum (version :: input)).length - 4 =
      (version :: input).length := by
    rw [hlen]; simp
  rw [if_neg (by rw [hlen]; omega), h4, List.take_left' rfl, List.drop_left' rfl,
    if_neg (by simp)]
  rfl


/-! ## Addresses -/

/-- C4: the address `New` builds from a 32-byte hash starts with the letter `A`, and the text
after that letter check-decodes, with version byte 0, to exactly the 32 bytes of the hash. -/
theorem C4_address_format (nickname : GoString) (addr : Hash32)
    (privateKey publicKey salt nonce : Bytes) :
    ∃ w, New nickname addr privateKey publicKey salt nonce = .ok w ∧
      w.Address.head? = some 65 ∧
      hasPrefix w.Address (ascii "A") = true ∧
      CheckDecode (w.Address.drop 1) = .ok (addr.val, 0) ∧
      addr.val.length = 32 := by
  refine ⟨_, rfl, rfl, ?_, ?_, addr.property⟩
  · simp [hasPrefix, ascii]
  · show CheckDecode (CheckEncode addr.val Base58Version) = _
    exact CheckDecode_CheckEncode addr.val Base58Version

theorem CheckEncode_injective (a b : Bytes) (v : Byte) (h : CheckEncode a v = CheckEncode b v) :
    a = b := by
  have ha := CheckDecode_CheckEncode a v
  rw [h, CheckDecode_CheckEncode b v] at ha
  simp only [Except.ok.injEq, Prod.mk.injEq] at ha
  exact ha.1.symm

/-- C5, counterexample: `New` called twice with the same public key and two different hashes
gives two wallets with the same public key and different addresses. -/
theorem C5_counterexample :
    ∃ w1 w2, New [] hashA [] [1, 2, 3] [] [] = .ok w1 ∧ New [] hashB [] [1, 2, 3] [] [] = .ok w2 ∧
      w1.KeyPair.PublicKey = w2.KeyPair.PublicKey ∧ w1.Address ≠ w2.Address := by
  refine ⟨_, _, rfl, rfl, rfl, ?_⟩
  intro h
  have h2 : CheckEncode hashA.val Base58Version = CheckEncode hashB.val Base58Version :=
    List.append_cancel_left h
  have h3 := CheckEncode_injective _ _ _ h2
  revert h3
  decide


/-! ## Generate -/

theorem Protect_fst (w : Wallet) (pw : GoString) :
    ∃ pk, (w.Protect pw).1 = w.setPrivateKey pk := by
  obtain ⟨g, hg⟩ := aead_ok pw w.KeyPair.Salt
  rw [Protect_of_aead w pw g hg]
  cases g.Seal w.KeyPair.Nonce w.KeyPair.PrivateKey [] with
  | error msg => exact ⟨w.KeyPair.PrivateKey, rfl⟩
  | ok ct => exact ⟨ct, rfl⟩

/-- What `Generate` does once the draws have succeeded and `Protect` has sealed the key: the
outcome is that of `Persist`, and a failure of `Persist` is returned with a nil wallet. -/
theorem Generate_of_protected (blake3Sum256 : Bytes → Hash32) (rnd : Entropy) (fs : FS)
    (nickname password : GoString)
    (publicKey : { b : Bytes // b.length = 32 }) (privateKey : { b : Bytes // b.length = 64 })
    (salt : { b : Bytes // b.length = SaltSize }) (nonce : { b : Bytes // b.length = NonceSize })
    (wallet w1 : Wallet)
    (hk : rnd.keys = .ok (publicKey, privateKey)) (hs : rnd.salt = .ok salt)
    (hn : rnd.nonce = .ok nonce)
    (hnew : New nickname (blake3Sum256 publicKey.val) privateKey.val publicKey.val salt.val
      nonce.val = .ok wallet)
    (hp : wallet.Protect password = (w1, .ok ())) :
    Generate blake3Sum256 rnd fs nickname password =
      match w1.Persist fs with
      | (fs1, some err) => (fs1, .ok ⟨none, some (ascii "persisting the new wallet: " ++ err)⟩)
      | (fs1, none) => (fs1, .ok ⟨some w1, none⟩) := by
  unfold Generate
  simp only [hk, hs, hn, hnew, hp]

/-- With a 12-byte nonce and a 64-byte key, `Protect` seals the new wallet. -/
theorem Protect_new (nickname password : GoString) (addr : Hash32)
    (publicKey : { b : Bytes // b.length = 32 }) (privateKey : { b : Bytes // b.length = 64 })
    (salt : { b : Bytes // b.length = SaltSize }) (nonce : { b : Bytes // b.length = NonceSize })
    (wallet : Wallet)
    (hnew : New nickname addr privateKey.val publicKey.val salt.val nonce.val = .ok wallet) :
    ∃ pk, wallet.Protect password = (wallet.setPrivateKey pk, .ok ()) := by
  obtain ⟨g, hg⟩ := aead_ok password wallet.KeyPair.Salt
  simp only [New, Except.ok.injEq] at hnew
  subst hnew
  exact ⟨_, Protect_ok _ password g hg nonce.property
    (by simp only [privateKey.property, gcmMaxPlaintext]; decide)⟩

theorem Persist_refused (w : Wallet) (fs : FS) (failure : WriteFailure)
    (h : fs.refuse (Filename w.Nickname) = some failure) :
    (w.Persist fs).2 =
      some (ascii "writing wallet to '" ++ Filename w.Nickname ++ ascii ": " ++ failure.err) := by
  unfold Wallet.Persist jsonMarshal FS.WriteFile
  simp only [h]
  cases failure.leftover <;> rfl

theorem Persist_accepted (w : Wallet) (fs : FS) (h : fs.refuse (Filename w.Nickname) = none) :
    ∃ text, jsonMarshal w = .ok text ∧ w.Persist fs = (fs.put (Filename w.Nickname) text, none) := by
  refine ⟨_, rfl, ?_⟩
  unfold Wallet.Persist jsonMarshal FS.WriteFile
  simp only [h]

/-- The address of a wallet returned by `Generate` is derived from its public key. -/
theorem Generate_address (blake3Sum256 : Bytes → Hash32) (rnd : Entropy) (fs : FS)
    (nickname password : GoString) (w : Wallet) (e : Option GoString)
    (h : (Generate blake3Sum256 rnd fs nickname password).2 = .ok ⟨some w, e⟩) :
    w.Address = ascii "A" ++ CheckEncode (blake3Sum256 w.KeyPair.PublicKey).val Base58Version := by
  cases hk : rnd.keys with
  | error err => simp [Generate, hk] at h
  | ok keys =>
    obtain ⟨publicKey, privateKey⟩ := keys
    cases hs : rnd.salt with
    | error err => simp [Generate, hk, hs] at h
    | ok salt =>
      cases hn : rnd.nonce with
      | error err => simp [Generate, hk, hs, hn] at h
      | ok nonce =>
        obtain ⟨pk, hp⟩ := Protect_new nickname password (blake3Sum256 publicKey.val) publicKey
          privateKey salt nonce _ rfl
        rw [Generate_of_protected blake3Sum256 rnd fs nickname password publicKey privateKey
          salt nonce _ _ hk hs hn rfl hp] at h
        cases hpers : Wallet.Persist (Wallet.setPrivateKey _ pk) fs with
        | mk fs1 oe =>
          rw [hpers] at h
          cases oe with
          | some err => simp at h
          | none =>
            simp only [Except.ok.injEq, Generated.mk.injEq, Option.some.injEq] at h
            rw [← h.1]
            rfl

/-- When every draw succeeds and the write is accepted, `Generate` returns the sealed wallet. -/
theorem Generate_ok (blake3Sum256 : Bytes → Hash32) (rnd : Entropy) (fs : FS)
    (nickname password : GoString)
    (publicKey : { b : Bytes // b.length = 32 }) (privateKey : { b : Bytes // b.length = 64 })
    (salt : { b : Bytes // b.length = SaltSize }) (nonce : { b : Bytes // b.length = NonceSize })
    (hk : rnd.keys = .ok (publicKey, privateKey)) (hs : rnd.salt = .ok salt)
    (hn : rnd.nonce = .ok nonce) (hw : fs.refuse (Filename nickname) = none) :
    ∃ w, (Generate blake3Sum256 rnd fs nickname password).2 = .ok ⟨some w, none⟩ ∧
      w.KeyPair.PublicKey = publicKey.val := by
  obtain ⟨wallet, hnew⟩ : ∃ w, New nickname (blake3Sum256 publicKey.val) privateKey.val
      publicKey.val salt.val nonce.val = .ok w := ⟨_, rfl⟩
  have hfields : wallet.Nickname = nickname ∧ wallet.KeyPair.PublicKey = publicKey.val := by
    simp only [New, Except.ok.injEq] at hnew
    rw [← hnew]
    exact ⟨rfl, rfl⟩
  obtain ⟨pk, hp⟩ := Protect_new nickname password (blake3Sum256 publicKey.val) publicKey
    privateKey salt nonce wallet hnew
  obtain ⟨text, _, hpers⟩ := Persist_accepted (wallet.setPrivateKey pk) fs
    (by rw [setPrivateKey_Nickname, hfields.1]; exact hw)
  refine ⟨wallet.setPrivateKey pk, ?_, ?_⟩
  · rw [Generate_of_protected blake3Sum256 rnd fs nickname password publicKey privateKey
      salt nonce wallet _ hk hs hn hnew hp, hpers]
  · rw [setPrivateKey_KeyPair_PublicKey, hfields.2]

/-- C5 (as amended): two wallets returned by `Generate` that have the same public key have the
same address, the letter `A` followed by the check encoding of the hash of that key. -/
theorem C5_generate_address_of_public_key (blake3Sum256 : Bytes → Hash32)
    (rnd1 rnd2 : Entropy) (fs1 fs2 : FS) (nickname1 nickname2 password1 password2 : GoString)
    (w1 w2 : Wallet) (e1 e2 : Option GoString)
    (h1 : (Generate blake3Sum256 rnd1 fs1 nickname1 password1).2 = .ok ⟨some w1, e1⟩)
    (h2 : (Generate blake3Sum256 rnd2 fs2 nickname2 password2).2 = .ok ⟨some w2, e2⟩)
    (hpk : w1.KeyPair.PublicKey = w2.KeyPair.PublicKey) :
    w1.Address = w2.Address ∧
    w1.Address =
      ascii "A" ++ CheckEncode (blake3Sum256 w1.KeyPair.PublicKey).val Base58Version := by
  have a1 := Generate_address blake3Sum256 rnd1 fs1 nickname1 password1 w1 e1 h1
  have a2 := Generate_address blake3Sum256 rnd2 fs2 nickname2 password2 w2 e2 h2
  refine ⟨?_, a1⟩
  rw [a1, a2, hpk]

/-- C5, witness: two calls of `Generate` that draw the same key pair, for two nicknames and
two passwords. -/
theorem C5_witness :
    ∃ w1 w2,
      (Generate sampleHash sampleEntropy emptyFS (ascii "alice") (ascii "pw")).2 =
        .ok ⟨some w1, none⟩ ∧
      (Generate sampleHash sampleEntropy emptyFS (ascii "bob") (ascii "secret")).2 =
        .ok ⟨some w2, none⟩ ∧
      w1.KeyPair.PublicKey = w2.KeyPair.PublicKey ∧ w1.Address = w2.Address := by
  obtain ⟨w1, h1, p1⟩ := Generate_ok sampleHash sampleEntropy emptyFS (ascii "alice") (ascii "pw")
    _ _ _ _ rfl rfl rfl rfl
  obtain ⟨w2, h2, p2⟩ := Generate_ok sampleHash sampleEntropy emptyFS (ascii "bob")
    (ascii "secret") _ _ _ _ rfl rfl rfl rfl
  exact ⟨w1, w2, h1, h2, p1.trans p2.symm,
    (C5_generate_address_of_public_key sampleHash sampleEntropy sampleEntropy emptyFS emptyFS
      (ascii "alice") (ascii "bob") (ascii "pw") (ascii "secret") w1 w2 none none h1 h2
      (p1.trans p2.symm)).1⟩

/-- C7 (as amended): when the draws and `Protect` succeed and `Persist` fails, `Generate`
returns a nil wallet together with the error of `Persist`, wrapped, and leaves the file system
as `Persist` left it. -/
theorem C7_generate_persist_failure (blake3Sum256 : Bytes → Hash32) (rnd : Entropy) (fs fs1 : FS)
    (nickname password : GoString)
    (publicKey : { b : Bytes // b.length = 32 }) (privateKey : { b : Bytes // b.length = 64 })
    (salt : { b : Bytes // b.length = SaltSize }) (nonce : { b : Bytes // b.length = NonceSize })
    (wallet w1 : Wallet) (err : GoString)
    (hk : rnd.keys = .ok (publicKey, privateKey)) (hs : rnd.salt = .ok salt)
    (hn : rnd.nonce = .ok nonce)
    (hnew : New nickname (blake3Sum256 publicKey.val) privateKey.val publicKey.val salt.val
      nonce.val = .ok wallet)
    (hp : wallet.Protect password = (w1, .ok ()))
    (hpers : w1.Persist fs = (fs1, some err)) :
    Generate blake3Sum256 rnd fs nickname password =
      (fs1, .ok ⟨none, some (ascii "persisting the new wallet: " ++ err)⟩) := by
  rw [Generate_of_protected blake3Sum256 rnd fs nickname password publicKey privateKey salt
    nonce wallet w1 hk hs hn hnew hp, hpers]

theorem Persist_readOnlyFS (w : Wallet) :
    w.Persist readOnlyFS =
      (readOnlyFS, some (ascii "writing wallet to '" ++ Filename w.Nickname ++ ascii ": " ++
        ascii "permission denied")) := rfl

/-- C7, witness: `Generate` in a directory where every write is refused. -/
theorem C7_witness :
    Generate sampleHash sampleEntropy readOnlyFS (ascii "alice") (ascii "pw") =
      (readOnlyFS, .ok ⟨none, some (ascii "persisting the new wallet: " ++
        (ascii "writing wallet to '" ++ Filename (ascii "alice") ++ ascii ": " ++
          ascii "permission denied"))⟩) := by
  obtain ⟨pk, hp⟩ := Protect_new (ascii "alice") (ascii "pw")
    (sampleHash (List.replicate 32 9)) ⟨List.replicate 32 9, rfl⟩ ⟨List.replicate 64 7, rfl⟩
    ⟨List.replicate 12 1, rfl⟩ ⟨List.replicate 12 2, rfl⟩ _ rfl
  exact C7_generate_persist_failure sampleHash sampleEntropy readOnlyFS readOnlyFS
    (ascii "alice") (ascii "pw") _ _ _ _ _ _ _ rfl rfl rfl rfl hp (Persist_readOnlyFS _)

/-- C7, counterexample: the draws and `Protect` succeed and `Persist` fails, yet the caller
receives a nil wallet, and a wallet file of that nickname exists afterwards. -/
theorem C7_counterexample :
    ∃ wallet w1 err,
      New (ascii "alice") (sampleHash (List.replicate 32 9)) (List.replicate 64 7)
        (List.replicate 32 9) (List.replicate 12 1) (List.replicate 12 2) = .ok wallet ∧
      wallet.Protect (ascii "pw") = (w1, .ok ()) ∧
      (w1.Persist readOnlyFS).2 = some err ∧
      (Generate sampleHash sampleEntropy readOnlyFS (ascii "alice") (ascii "pw")).2 =
        .ok ⟨none, some (ascii "persisting the new wallet: " ++ err)⟩ ∧
      ((Generate sampleHash sampleEntropy readOnlyFS (ascii "alice") (ascii "pw")).1.find
        (Filename (ascii "alice"))).isSome = true := by
  obtain ⟨pk, hp⟩ := Protect_new (ascii "alice") (ascii "pw")
    (sampleHash (List.replicate 32 9)) ⟨List.replicate 32 9, rfl⟩ ⟨List.replicate 64 7, rfl⟩
    ⟨List.replicate 12 1, rfl⟩ ⟨List.replicate 12 2, rfl⟩ _ rfl
  have hg := Generate_of_protected sampleHash sampleEntropy readOnlyFS (ascii "alice") (ascii "pw")
    _ _ _ _ _ _ rfl rfl rfl rfl hp
  rw [Persist_readOnlyFS] at hg
  refine ⟨_, _, _, rfl, hp, congrArg Prod.snd (Persist_readOnlyFS _), ?_, ?_⟩
  · rw [hg]
  · rw [hg]
    rfl


/-! ## UTF-8: encoding inverts decoding -/

theorem byte_ext_of_val (n : Nat) (b : Byte) (h : n = b.val) : (Fin.ofNat n : Byte) = b := by
  subst h
  exact Fin.ext (Nat.mod_eq_of_lt b.isLt)

theorem decodeRune_cons (b0 : Byte) (rest : Bytes) :
    decodeRune (b0 :: rest) =
      if b0.val < 0x80 then (b0.val, 1)
      else if 0xC2 ≤ b0.val ∧ b0.val ≤ 0xDF then
        match rest with
        | b1 :: _ =>
          if isCont b1 then ((b0.val - 0xC0) * 64 + contBits b1, 2) else (RuneError, 1)
        | _ => (RuneError, 1)
      else if 0xE0 ≤ b0.val ∧ b0.val ≤ 0xEF then
        match rest with
        | b1 :: b2 :: _ =>
          let lo := if b0.val = 0xE0 then 0xA0 else 0x80
          let hi := if b0.val = 0xED then 0x9F else 0xBF
          if lo ≤ b1.val ∧ b1.val ≤ hi ∧ isCont b2 then
            ((b0.val - 0xE0) * 4096 + contBits b1 * 64 + contBits b2, 3)
          else (RuneError, 1)
        | _ => (RuneError, 1)
      else if 0xF0 ≤ b0.val ∧ b0.val ≤ 0xF4 then
        match rest with
        | b1 :: b2 :: b3 :: _ =>
          let lo := if b0.val = 0xF0 then 0x90 else 0x80
          let hi := if b0.val = 0xF4 then 0x8F else 0xBF
          if lo ≤ b1.val ∧ b1.val ≤ hi ∧ isCont b2 ∧ isCont b3 then
            ((b0.val - 0xF0) * 262144 + contBits b1 * 4096 + contBits b2 * 64 + contBits b3, 4)
          else (RuneError, 1)
        | _ => (RuneError, 1)
      else (RuneError, 1) := rfl

theorem decodeRune_two (b0 b1 : Byte) (rest : Bytes) (h : 0xC2 ≤ b0.val ∧ b0.val ≤ 0xDF) :
    decodeRune (b0 :: b1 :: rest) =
      if isCont b1 then ((b0.val - 0xC0) * 64 + contBits b1, 2) else (RuneError, 1) := by
  rw [decodeRune_cons, if_neg (by omega), if_pos h]

theorem decodeRune_three (b0 b1 b2 : Byte) (rest : Bytes) (h : 0xE0 ≤ b0.val ∧ b0.val ≤ 0xEF) :
    decodeRune (b0 :: b1 :: b2 :: rest) =
      if (if b0.val = 0xE0 then 0xA0 else 0x80) ≤ b1.val ∧
          b1.val ≤ (if b0.val = 0xED then 0x9F else 0xBF) ∧ isCont b2 then
        ((b0.val - 0xE0) * 4096 + contBits b1 * 64 + contBits b2, 3)
      else (RuneError, 1) := by
  rw [decodeRune_cons, if_neg (by omega), if_neg (by omega), if_pos h]

theorem decodeRune_four (b0 b1 b2 b3 : Byte) (rest : Bytes)
    (h : 0xF0 ≤ b0.val ∧ b0.val ≤ 0xF4) :
    decodeRune (b0 :: b1 :: b2 :: b3 :: rest) =
      if (if b0.val = 0xF0 then 0x90 else 0x80) ≤ b1.val ∧
          b1.val ≤ (if b0.val = 0xF4 then 0x8F else 0xBF) ∧ isCont b2 ∧ isCont b3 then
        ((b0.val - 0xF0) * 262144 + contBits b1 * 4096 + contBits b2 * 64 + contBits b3, 4)
      else (RuneError, 1) := by
  rw [decodeRune_cons, if_neg (by omega), if_neg (by omega), if_neg (by omega), if_pos h]

theorem decodeRune_short (l : Bytes) (r n : Nat) (h : decodeRune l = (r, n))
    (hv : ¬ (r = RuneError ∧ n = 1)) (hne : l ≠ []) :
    (∃ b0 rest, l = b0 :: rest ∧ b0.val < 0x80 ∧ r = b0.val ∧ n = 1) ∨
    (∃ b0 b1 rest, l = b0 :: b1 :: rest ∧ (0xC2 ≤ b0.val ∧ b0.val ≤ 0xDF) ∧ isCont b1 = true ∧
      r = (b0.val - 0xC0) * 64 + contBits b1 ∧ n = 2) ∨
    (∃ b0 b1 b2 rest, l = b0 :: b1 :: b2 :: rest ∧ (0xE0 ≤ b0.val ∧ b0.val ≤ 0xEF) ∧
      ((if b0.val = 0xE0 then 0xA0 else 0x80) ≤ b1.val ∧
        b1.val ≤ (if b0.val = 0xED then 0x9F else 0xBF) ∧ isCont b2 = true) ∧
      r = (b0.val - 0xE0) * 4096 + contBits b1 * 64 + contBits b2 ∧ n = 3) ∨
    (∃ b0 b1 b2 b3 rest, l = b0 :: b1 :: b2 :: b3 :: rest ∧ (0xF0 ≤ b0.val ∧ b0.val ≤ 0xF4) ∧
      ((if b0.val = 0xF0 then 0x90 else 0x80) ≤ b1.val ∧
        b1.val ≤ (if b0.val = 0xF4 then 0x8F else 0xBF) ∧ isCont b2 = true ∧ isCont b3 = true) ∧
      r = (b0.val - 0xF0) * 262144 + contBits b1 * 4096 + contBits b2 * 64 + contBits b3 ∧
      n = 4) := by
  have bad : ∀ {P : Prop}, (RuneError, 1) = (r, n) → P := by
    intro P e
    simp only [Prod.mk.injEq] at e
    exact absurd ⟨e.1.symm, e.2.symm⟩ hv
  rcases l with _ | ⟨b0, rest⟩
  · exact absurd rfl hne
  by_cases h1 : b0.val < 0x80
  · rw [decodeRune_cons, if_pos h1] at h
    simp only [Prod.mk.injEq] at h
    exact Or.inl ⟨b0, rest, rfl, h1, h.1.symm, h.2.symm⟩
  by_cases h2 : 0xC2 ≤ b0.val ∧ b0.val ≤ 0xDF
  · rcases rest with _ | ⟨b1, rest⟩
    · rw [decodeRune_cons, if_neg h1, if_pos h2] at h
      exact bad h
    · rw [decodeRune_two _ _ _ h2] at h
      by_cases hc : isCont b1 = true
      · rw [if_pos hc] at h
        simp only [Prod.mk.injEq] at h
        exact Or.inr (Or.inl ⟨b0, b1, rest, rfl, h2, hc, h.1.symm, h.2.symm⟩)
      · rw [if_neg hc] at h
        exact bad h
  by_cases h3 : 0xE0 ≤ b0.val ∧ b0.val ≤ 0xEF
  · rcases rest with _ | ⟨b1, _ | ⟨b2, rest⟩⟩
    · rw [decodeRune_cons, if_neg h1, if_neg h2, if_pos h3] at h
      exact bad h
    · rw [decodeRune_cons, if_neg h1, if_neg h2, if_pos h3] at h
      exact bad h
    · rw [decodeRune_three _ _ _ _ h3] at h
      by_cases hc : (if b0.val = 0xE0 then 0xA0 else 0x80) ≤ b1.val ∧
          b1.val ≤ (if b0.val = 0xED then 0x9F else 0xBF) ∧ isCont b2 = true
      · rw [if_pos hc] at h
        simp only [Prod.mk.injEq] at h
        exact Or.inr (Or.inr (Or.inl ⟨b0, b1, b2, rest, rfl, h3, hc, h.1.symm, h.2.symm⟩))
      · rw [if_neg hc] at h
        exact bad h
  by_cases h4 : 0xF0 ≤ b0.val ∧ b0.val ≤ 0xF4
  · rcases rest with _ | ⟨b1, _ | ⟨b2, _ | ⟨b3, rest⟩⟩⟩
    · rw [decodeRune_cons, if_neg h1, if_neg h2, if_neg h3, if_pos h4] at h
      exact bad h
    · rw [decodeRune_cons, if_neg h1, if_neg h2, if_neg h3, if_pos h4] at h
      exact bad h
    · rw [decodeRune_cons, if_neg h1, if_neg h2, if_neg h3, if_pos h4] at h
      exact bad h
    · rw [decodeRune_four _ _ _ _ _ h4] at h
      by_cases hc : (if b0.val = 0xF0 then 0x90 else 0x80) ≤ b1.val ∧
          b1.val ≤ (if b0.val = 0xF4 then 0x8F else 0xBF) ∧ isCont b2 = true ∧ isCont b3 = true
      · rw [if_pos hc] at h
        simp only [Prod.mk.injEq] at h
        exact Or.inr (Or.inr (Or.inr ⟨b0, b1, b2, b3, rest, rfl, h4, hc, h.1.symm, h.2.symm⟩))
      · rw [if_neg hc] at h
        exact bad h
  · rw [decodeRune_cons, if_neg h1, if_neg h2, if_neg h3, if_neg h4] at h
    exact bad h

set_option maxRecDepth 8000 in
/-- A successful `decodeRune` reads at most four bytes, all present; `encodeRune` gives these
bytes back; and the result does not depend on what follows them. -/
theorem decodeRune_spec (l : Bytes) (r n : Nat) (h : decodeRune l = (r, n))
    (hv : ¬ (r = RuneError ∧ n = 1)) (hne : l ≠ []) :
    1 ≤ n ∧ n ≤ l.length ∧ encodeRune r = l.take n ∧
      ∀ X, decodeRune (l.take n ++ X) = (r, n) := by
  rcases decodeRune_short l r n h hv hne with
    ⟨b0, rest, rfl, h1, hr, hn⟩ | ⟨b0, b1, rest, rfl, h2, hc, hr, hn⟩ |
    ⟨b0, b1, b2, rest, rfl, h3, hc, hr, hn⟩ | ⟨b0, b1, b2, b3, rest, rfl, h4, hc, hr, hn⟩ <;>
    subst hr hn
  · refine ⟨le_refl _, by simp, ?_, ?_⟩
    · simp only [encodeRune, if_pos h1, List.take_succ_cons, List.take_zero]
      rw [byte_ext_of_val _ b0 rfl]
    · intro X
      simp [decodeRune_cons, h1]
  · have hb0 := b0.isLt
    have hb1 := b1.isLt
    simp only [isCont, decide_eq_true_eq] at hc
    refine ⟨by omega, by simp, ?_, ?_⟩
    · have e1 : ¬ ((b0.val - 0xC0) * 64 + contBits b1 < 0x80) := by
        simp only [contBits]; omega
      have e2 : (b0.val - 0xC0) * 64 + contBits b1 < 0x800 := by
        simp only [contBits]; omega
      simp only [encodeRune, if_neg e1, if_pos e2, List.take_succ_cons, List.take_zero]
      congr 1
      · apply byte_ext_of_val; simp only [contBits]; omega
      · congr 1
        apply byte_ext_of_val; simp only [contBits]; omega
    · intro X
      simp only [List.take_succ_cons, List.take_zero, List.cons_append, List.nil_append]
      rw [decodeRune_two _ _ _ h2, if_pos (by simp [isCont, hc])]
  · have hb0 := b0.isLt
    have hb1 := b1.isLt
    have hb2 := b2.isLt
    simp only [isCont, decide_eq_true_eq] at hc
    obtain ⟨hlo, hhi, hc2⟩ := hc
    obtain ⟨R, hR⟩ : ∃ R, R = (b0.val - 0xE0) * 4096 + (b1.val - 0x80) * 64 + (b2.val - 0x80) :=
      ⟨_, rfl⟩
    have f1 : ¬ R < 0x80 := by split_ifs at hlo hhi <;> omega
    have f2 : ¬ R < 0x800 := by split_ifs at hlo hhi <;> omega
    have f3 : ¬ ((0xD800 ≤ R ∧ R ≤ 0xDFFF) ∨ 0x10FFFF < R) := by
      split_ifs at hlo hhi <;> omega
    have f4 : R < 0x10000 := by split_ifs at hlo hhi <;> omega
    have g0 : 0xE0 + R / 4096 = b0.val := by split_ifs at hlo hhi <;> omega
    have g1 : 0x80 + R / 64 % 64 = b1.val := by split_ifs at hlo hhi <;> omega
    have g2 : 0x80 + R % 64 = b2.val := by split_ifs at hlo hhi <;> omega
    refine ⟨by omega, by simp, ?_, ?_⟩
    · simp only [contBits, ← hR]
      simp only [encodeRune, if_neg f1, if_neg f2, if_neg f3, if_pos f4, List.take_succ_cons,
        List.take_zero]
      rw [byte_ext_of_val _ b0 g0, byte_ext_of_val _ b1 g1, byte_ext_of_val _ b2 g2]
    · intro X
      simp only [List.take_succ_cons, List.take_zero, List.cons_append, List.nil_append]
      rw [decodeRune_three _ _ _ _ h3, if_pos ⟨hlo, hhi, by simp [isCont, hc2]⟩]
  · have hb0 := b0.isLt
    have hb1 := b1.isLt
    have hb2 := b2.isLt
    have hb3 := b3.isLt
    simp only [isCont, decide_eq_true_eq] at hc
    obtain ⟨hlo, hhi, hc2, hc3⟩ := hc
    obtain ⟨R, hR⟩ : ∃ R, R = (b0.val - 0xF0) * 262144 + (b1.val - 0x80) * 4096 +
        (b2.val - 0x80) * 64 + (b3.val - 0x80) := ⟨_, rfl⟩
    have f1 : ¬ R < 0x80 := by split_ifs at hlo hhi <;> omega
    have f2 : ¬ R < 0x800 := by split_ifs at hlo hhi <;> omega
    have f3 : ¬ ((0xD800 ≤ R ∧ R ≤ 0xDFFF) ∨ 0x10FFFF < R) := by
      split_ifs at hlo hhi <;> omega
    have f4 : ¬ R < 0x10000 := by split_ifs at hlo hhi <;> omega
    have g0 : 0xF0 + R / 262144 = b0.val := by split_ifs at hlo hhi <;> omega
    have g1 : 0x80 + R / 4096 % 64 = b1.val := by split_ifs at hlo hhi <;> omega
    have g2 : 0x80 + R / 64 % 64 = b2.val := by split_ifs at hlo hhi <;> omega
    have g3 : 0x80 + R % 64 = b3.val := by split_ifs at hlo hhi <;> omega
    refine ⟨by omega, by simp, ?_, ?_⟩
    · simp only [contBits, ← hR]
      simp only [encodeRune, if_neg f1, if_neg f2, if_neg f3, if_neg f4, List.take_succ_cons,
        List.take_zero]
      rw [byte_ext_of_val _ b0 g0, byte_ext_of_val _ b1 g1, byte_ext_of_val _ b2 g2,
        byte_ext_of_val _ b3 g3]
    · intro X
      simp only [List.take_succ_cons, List.take_zero, List.cons_append, List.nil_append]
      rw [decodeRune_four _ _ _ _ _ h4,
        if_pos ⟨hlo, hhi, by simp [isCont, hc2], by simp [isCont, hc3]⟩]

/-! ## Base 64: decoding inverts encoding -/

theorem b64Value_b64Char : ∀ v : Fin 64, b64Value (b64Char v.val) = some v.val := by decide

theorem b64Char_ne_pad : ∀ v : Fin 64, b64Char v.val ≠ StdPadding := by decide

theorem b64Char_plain : ∀ v : Fin 64, isPlain (b64Char v.val) := by decide

theorem pad_plain : isPlain StdPadding := by decide

theorem b64Encode_plain : ∀ bs : Bytes, ∀ c ∈ b64Encode bs, isPlain c
  | [], c, h => by simp [b64Encode] at h
  | [a], c, h => by
    have ha := a.isLt
    simp only [b64Encode, List.mem_cons, List.mem_singleton, List.not_mem_nil, or_false] at h
    rcases h with rfl | rfl | rfl | rfl
    · exact b64Char_plain ⟨a.val / 4, by omega⟩
    · exact b64Char_plain ⟨a.val % 4 * 16, by omega⟩
    · exact pad_plain
    · exact pad_plain
  | [a, b], c, h => by
    have ha := a.isLt
    have hb := b.isLt
    simp only [b64Encode, List.mem_cons, List.mem_singleton, List.not_mem_nil, or_false] at h
    rcases h with rfl | rfl | rfl | rfl
    · exact b64Char_plain ⟨a.val / 4, by omega⟩
    · exact b64Char_plain ⟨a.val % 4 * 16 + b.val / 16, by omega⟩
    · exact b64Char_plain ⟨b.val % 16 * 4, by omega⟩
    · exact pad_plain
  | a :: b :: c :: rest, x, h => by
    have ha := a.isLt
    have hb := b.isLt
    have hc := c.isLt
    simp only [b64Encode, List.mem_cons] at h
    rcases h with rfl | rfl | rfl | rfl | h
    · exact b64Char_plain ⟨a.val / 4, by omega⟩
    · exact b64Char_plain ⟨a.val % 4 * 16 + b.val / 16, by omega⟩
    · exact b64Char_plain ⟨b.val % 16 * 4 + c.val / 64, by omega⟩
    · exact b64Char_plain ⟨c.val % 64, by omega⟩
    · exact b64Encode_plain rest x h

theorem b64DecodeQuanta_b64Encode : ∀ bs : Bytes, b64DecodeQuanta (b64Encode bs) = some bs
  | [] => rfl
  | [a] => by
    have ha := a.isLt
    have h0 := b64Value_b64Char ⟨a.val / 4, by omega⟩
    have h1 := b64Value_b64Char ⟨a.val % 4 * 16, by omega⟩
    simp only [] at h0 h1
    simp only [b64Encode, b64DecodeQuanta, h0, h1, if_true, and_self]
    rw [byte_ext_of_val _ a (by omega)]
  | [a, b] => by
    have ha := a.isLt
    have hb := b.isLt
    have h0 := b64Value_b64Char ⟨a.val / 4, by omega⟩
    have h1 := b64Value_b64Char ⟨a.val % 4 * 16 + b.val / 16, by omega⟩
    have h2 := b64Value_b64Char ⟨b.val % 16 * 4, by omega⟩
    have n2 := b64Char_ne_pad ⟨b.val % 16 * 4, by omega⟩
    simp only [] at h0 h1 h2 n2
    simp only [b64Encode, b64DecodeQuanta, h0, h1, h2, if_neg n2, if_true]
    rw [byte_ext_of_val _ a (by omega), byte_ext_of_val _ b (by omega)]
  | a :: b :: c :: rest => by
    have ha := a.isLt
    have hb := b.isLt
    have hc := c.isLt
    have h0 := b64Value_b64Char ⟨a.val / 4, by omega⟩
    have h1 := b64Value_b64Char ⟨a.val % 4 * 16 + b.val / 16, by omega⟩
    have h2 := b64Value_b64Char ⟨b.val % 16 * 4 + c.val / 64, by omega⟩
    have h3 := b64Value_b64Char ⟨c.val % 64, by omega⟩
    have n2 := b64Char_ne_pad ⟨b.val % 16 * 4 + c.val / 64, by omega⟩
    have n3 := b64Char_ne_pad ⟨c.val % 64, by omega⟩
    simp only [] at h0 h1 h2 h3 n2 n3
    simp only [b64Encode, b64DecodeQuanta, h0, h1, h2, h3, if_neg n2, if_neg n3,
      b64DecodeQuanta_b64Encode rest]
    rw [byte_ext_of_val _ a (by omega), byte_ext_of_val _ b (by omega),
      byte_ext_of_val _ c (by omega)]

theorem b64Decode_b64Encode (bs : Bytes) : b64Decode (b64Encode bs) = some bs := by
  unfold b64Decode
  rw [List.filter_eq_self.mpr, b64DecodeQuanta_b64Encode]
  intro c hc
  have hp := b64Encode_plain bs c hc
  simp only [ne_eq, decide_eq_true_eq]
  constructor <;> intro h <;> subst h <;> exact absurd hp.1 (by decide)


/-! ## JSON strings: reading inverts writing -/

theorem unquote_cons (fuel : Nat) (c : Byte) (rest : Bytes) :
    unquote (fuel + 1) (c :: rest) =
      if c = 34 then some ([], rest)
      else if c = 92 then
        match rest with
        | [] => none
        | e :: rest1 =>
          if e = 117 then
            match getu4 (c :: rest) with
            | none => none
            | some rr =>
              let rest2 := rest1.drop 4
              if 0xD800 ≤ rr ∧ rr < 0xE000 then
                let dec := utf16DecodeRune rr (getu4 rest2)
                if dec ≠ RuneError then
                  (unquote fuel (rest2.drop 6)).map fun p => (encodeRune dec ++ p.1, p.2)
                else
                  (unquote fuel rest2).map fun p => (encodeRune RuneError ++ p.1, p.2)
              else
                (unquote fuel rest2).map fun p => (encodeRune rr ++ p.1, p.2)
          else
            let plain : Option Byte :=
              if e = 34 ∨ e = 92 ∨ e = 47 then some e
              else if e = 98 then some 8
              else if e = 102 then some 12
              else if e = 110 then some 10
              else if e = 114 then some 13
              else if e = 116 then some 9
              else none
            match plain with
            | none => none
            | some b => (unquote fuel rest1).map fun p => (b :: p.1, p.2)
      else if c.val < 0x20 then none
      else if c.val < 0x80 then (unquote fuel rest).map fun p => (c :: p.1, p.2)
      else
        let d := decodeRune (c :: rest)
        (unquote fuel ((c :: rest).drop d.2)).map fun p => (encodeRune d.1 ++ p.1, p.2) := by
  rfl

theorem unquote_quote (fuel : Nat) (rest : Bytes) :
    unquote (fuel + 1) (34 :: rest) = some ([], rest) := by
  rw [unquote_cons, if_pos rfl]

theorem unquote_plain_cons (fuel : Nat) (c : Byte) (rest : Bytes) (h : isPlain c) :
    unquote (fuel + 1) (c :: rest) = (unquote fuel rest).map fun p => (c :: p.1, p.2) := by
  obtain ⟨h1, h2, h3, h4⟩ := h
  rw [unquote_cons, if_neg h3, if_neg h4, if_neg (by omega), if_pos h2]

theorem unquote_plain (s : Bytes) : ∀ (fuel : Nat) (rest : Bytes), (∀ c ∈ s, isPlain c) →
    s.length < fuel → unquote fuel (s ++ 34 :: rest) = some (s, rest) := by
  induction s with
  | nil =>
    intro fuel rest _ hf
    obtain ⟨f, rfl⟩ : ∃ f, fuel = f + 1 := ⟨fuel - 1, by simp at hf; omega⟩
    exact unquote_quote f rest
  | cons c s ih =>
    intro fuel rest hp hf
    obtain ⟨f, rfl⟩ : ∃ f, fuel = f + 1 := ⟨fuel - 1, by simp at hf; omega⟩
    rw [List.cons_append, unquote_plain_cons f c _ (hp c (List.mem_cons_self _ _)),
      ih f rest (fun x hx => hp x (List.mem_cons_of_mem _ hx)) (by simp at hf; omega)]
    rfl

theorem unquote_high (fuel : Nat) (c : Byte) (rest : Bytes) (h : 0x80 ≤ c.val) :
    unquote (fuel + 1) (c :: rest) =
      (unquote fuel ((c :: rest).drop (decodeRune (c :: rest)).2)).map fun p =>
        (encodeRune (decodeRune (c :: rest)).1 ++ p.1, p.2) := by
  have h3 : c ≠ 34 := by intro e; subst e; revert h; decide
  have h4 : c ≠ 92 := by intro e; subst e; revert h; decide
  rw [unquote_cons, if_neg h3, if_neg h4, if_neg (by omega), if_neg (by omega)]

theorem unquote_backslash (fuel : Nat) (e : Byte) (rest1 : Bytes) :
    unquote (fuel + 1) (92 :: e :: rest1) =
      if e = 117 then
        match getu4 (92 :: e :: rest1) with
        | none => none
        | some rr =>
          let rest2 := rest1.drop 4
          if 0xD800 ≤ rr ∧ rr < 0xE000 then
            let dec := utf16DecodeRune rr (getu4 rest2)
            if dec ≠ RuneError then
              (unquote fuel (rest2.drop 6)).map fun p => (encodeRune dec ++ p.1, p.2)
            else
              (unquote fuel rest2).map fun p => (encodeRune RuneError ++ p.1, p.2)
          else
            (unquote fuel rest2).map fun p => (encodeRune rr ++ p.1, p.2)
      else
        let plain : Option Byte :=
          if e = 34 ∨ e = 92 ∨ e = 47 then some e
          else if e = 98 then some 8
          else if e = 102 then some 12
          else if e = 110 then some 10
          else if e = 114 then some 13
          else if e = 116 then some 9
          else none
        match plain with
        | none => none
        | some b => (unquote fuel rest1).map fun p => (b :: p.1, p.2) := by
  rw [unquote_cons, if_neg (by decide), if_pos rfl]

theorem hexValue_hexDigit : ∀ v : Fin 16, hexValue (hexDigit v.val) = some v.val := by decide

/-- An escape `\uXXXX` of a rune outside the surrogate range is read as the encoding of that
rune. -/
theorem unquote_u (fuel : Nat) (h1 h2 h3 h4 : Byte) (a b c d : Nat) (rest : Bytes)
    (e1 : hexValue h1 = some a) (e2 : hexValue h2 = some b) (e3 : hexValue h3 = some c)
    (e4 : hexValue h4 = some d)
    (hs : ¬ (0xD800 ≤ a * 4096 + b * 256 + c * 16 + d ∧ a * 4096 + b * 256 + c * 16 + d < 0xE000)) :
    unquote (fuel + 1) (92 :: 117 :: h1 :: h2 :: h3 :: h4 :: rest) =
      (unquote fuel rest).map fun p =>
        (encodeRune (a * 4096 + b * 256 + c * 16 + d) ++ p.1, p.2) := by
  rw [unquote_backslash]
  simp only [getu4, e1, e2, e3, e4, if_neg hs, List.drop_succ_cons, List.drop_zero, if_true]

theorem unquote_simple (fuel : Nat) (e b : Byte) (rest : Bytes) (he : e ≠ 117)
    (hb : (if e = 34 ∨ e = 92 ∨ e = 47 then some e
          else if e = 98 then some 8
          else if e = 102 then some 12
          else if e = 110 then some 10
          else if e = 114 then some 13
          else if e = 116 then some 9
          else none) = some b) :
    unquote (fuel + 1) (92 :: e :: rest) =
      (unquote fuel rest).map fun p => (b :: p.1, p.2) := by
  rw [unquote_backslash]
  simp only [if_neg he, hb]

theorem escapeString_nil (f : Nat) : escapeString f [] = [] := by
  cases f <;> rfl

theorem escapeString_cons (f : Nat) (b : Byte) (rest : Bytes) :
    escapeString (f + 1) (b :: rest) =
      if b.val < 0x80 then
        (if htmlSafe b then [b] else escapeASCII b) ++ escapeString f rest
      else
        if (decodeRune (b :: rest)).1 = RuneError ∧ (decodeRune (b :: rest)).2 = 1 then
          [92, 117, 102, 102, 102, 100] ++ escapeString f rest
        else if (decodeRune (b :: rest)).1 = 0x2028 ∨ (decodeRune (b :: rest)).1 = 0x2029 then
          [92, 117, 50, 48, 50, hexDigit ((decodeRune (b :: rest)).1 % 16)] ++
            escapeString f ((b :: rest).drop (decodeRune (b :: rest)).2)
        else
          (b :: rest).take (decodeRune (b :: rest)).2 ++
            escapeString f ((b :: rest).drop (decodeRune (b :: rest)).2) := rfl

theorem validUTF8_cons (f : Nat) (b : Byte) (rest : Bytes) :
    validUTF8 (f + 1) (b :: rest) =
      if (decodeRune (b :: rest)).1 = RuneError ∧ (decodeRune (b :: rest)).2 = 1 then false
      else validUTF8 f ((b :: rest).drop (decodeRune (b :: rest)).2) := rfl

/-- Reading the escape of an ASCII character outside `htmlSafeSet` gives the character. -/
theorem unquote_escapeASCII (fuel : Nat) (b : Byte) (rest : Bytes) (hb : b.val < 0x80) :
    unquote (fuel + 1) (escapeASCII b ++ rest) =
      (unquote fuel rest).map fun p => (b :: p.1, p.2) := by
  unfold escapeASCII
  by_cases h1 : b = 92 ∨ b = 34
  · rw [if_pos h1]
    refine unquote_simple fuel b b rest ?_ ?_
    · rcases h1 with rfl | rfl <;> decide
    · rw [if_pos (by rcases h1 with rfl | rfl <;> simp)]
  rw [if_neg h1]
  by_cases h2 : b = 10
  · rw [if_pos h2]; subst h2; exact unquote_simple fuel 110 10 rest (by decide) (by decide)
  rw [if_neg h2]
  by_cases h3 : b = 13
  · rw [if_pos h3]; subst h3; exact unquote_simple fuel 114 13 rest (by decide) (by decide)
  rw [if_neg h3]
  by_cases h4 : b = 9
  · rw [if_pos h4]; subst h4; exact unquote_simple fuel 116 9 rest (by decide) (by decide)
  rw [if_neg h4]
  have e3 := hexValue_hexDigit ⟨b.val / 16, by omega⟩
  have e4 := hexValue_hexDigit ⟨b.val % 16, by omega⟩
  simp only [] at e3 e4
  have hu := unquote_u fuel 48 48 (hexDigit (b.val / 16)) (hexDigit (b.val % 16)) 0 0
    (b.val / 16) (b.val % 16) rest (by decide) (by decide) e3 e4 (by omega)
  have hv : 0 * 4096 + 0 * 256 + b.val / 16 * 16 + b.val % 16 = b.val := by omega
  rw [hv] at hu
  have he : encodeRune b.val = [b] := by
    simp only [encodeRune, if_pos hb]
    rw [byte_ext_of_val _ b rfl]
  rw [he] at hu
  exact hu

theorem length_escapeASCII_pos (b : Byte) : 1 ≤ (escapeASCII b).length := by
  unfold escapeASCII
  split_ifs <;> simp

/-- Reading the body of the literal written for a valid UTF-8 string gives the string. -/
theorem unquote_escapeString : ∀ (f : Nat) (s rest : Bytes) (fuel : Nat), s.length ≤ f →
    validUTF8 f s = true → (escapeString f s).length < fuel →
    unquote fuel (escapeString f s ++ 34 :: rest) = some (s, rest) := by
  intro f
  induction f with
  | zero =>
    intro s rest fuel hl _ hf
    have : s = [] := List.length_eq_zero.mp (by omega)
    subst this
    obtain ⟨k, rfl⟩ : ∃ k, fuel = k + 1 := ⟨fuel - 1, by omega⟩
    rw [escapeString_nil]
    exact unquote_quote k rest
  | succ f ih =>
    intro s rest fuel hl hvalid hf
    obtain ⟨k, rfl⟩ : ∃ k, fuel = k + 1 := ⟨fuel - 1, by omega⟩
    rcases s with _ | ⟨b, t⟩
    · rw [escapeString_nil]
      exact unquote_quote k rest
    rw [validUTF8_cons] at hvalid
    split_ifs at hvalid with hbad
    rw [escapeString_cons] at hf ⊢
    by_cases hb : b.val < 0x80
    · -- an ASCII character
      rw [if_pos hb] at hf ⊢
      have hd : decodeRune (b :: t) = (b.val, 1) := by rw [decodeRune_cons, if_pos hb]
      rw [hd] at hvalid
      simp only [List.drop_succ_cons, List.drop_zero] at hvalid
      have hlt : t.length ≤ f := by simpa using hl
      by_cases hs : htmlSafe b = true
      · rw [if_pos hs] at hf ⊢
        have hplain : isPlain b := by
          simp only [htmlSafe, decide_eq_true_eq] at hs
          exact ⟨hs.1, hs.2.1, hs.2.2.1, hs.2.2.2.1⟩
        rw [List.append_assoc, List.singleton_append, unquote_plain_cons k b _ hplain,
          ih t rest k hlt hvalid (by simp at hf; omega)]
        rfl
      · rw [if_neg hs] at hf ⊢
        have := length_escapeASCII_pos b
        rw [List.append_assoc, unquote_escapeASCII k b _ hb,
          ih t rest k hlt hvalid (by simp at hf; omega)]
        rfl
    · -- a multi-byte encoding
      rw [if_neg hb, if_neg hbad] at hf ⊢
      obtain ⟨r, n, hd⟩ : ∃ r n, decodeRune (b :: t) = (r, n) := ⟨_, _, rfl⟩
      rw [hd] at hf hvalid hbad ⊢
      simp only at hf hvalid hbad ⊢
      obtain ⟨hn1, hn2, henc, hstable⟩ := decodeRune_spec (b :: t) r n hd hbad (by simp)
      have hlt : ((b :: t).drop n).length ≤ f := by
        simp only [List.length_drop, List.length_cons] at hl ⊢; omega
      by_cases hsep : r = 0x2028 ∨ r = 0x2029
      · rw [if_pos hsep] at hf ⊢
        have e4 := hexValue_hexDigit ⟨r % 16, by omega⟩
        simp only [] at e4
        have hu := unquote_u k 50 48 50 (hexDigit (r % 16)) 2 0 2 (r % 16)
          (escapeString f ((b :: t).drop n) ++ 34 :: rest) (by decide) (by decide) (by decide) e4
          (by omega)
        have hv : 2 * 4096 + 0 * 256 + 2 * 16 + r % 16 = r := by omega
        rw [hv, henc] at hu
        rw [List.append_assoc]
        simp only [List.cons_append, List.nil_append]
        rw [hu, ih _ rest k hlt hvalid (by simp at hf; omega)]
        simp
      · rw [if_neg hsep] at hf ⊢
        obtain ⟨tk, htk⟩ : ∃ tk, (b :: t).take n = b :: tk := by
          obtain ⟨m, rfl⟩ : ∃ m, n = m + 1 := ⟨n - 1, by omega⟩
          exact ⟨_, rfl⟩
        have hlen : ((b :: t).take n).length = n := by
          rw [List.length_take]; omega
        have hst := hstable (escapeString f ((b :: t).drop n) ++ 34 :: rest)
        rw [List.append_assoc]
        rw [htk] at hst hlen ⊢
        rw [List.cons_append, unquote_high k b _ (by omega)]
        rw [List.cons_append] at hst
        rw [hst]
        simp only
        rw [← List.cons_append, List.drop_left' hlen,
          ih _ rest k hlt hvalid (by rw [htk] at hf; simp at hf ⊢; omega)]
        simp only [Option.map_some', Option.some.injEq, Prod.mk.injEq, and_true]
        rw [henc]
        exact List.take_append_drop n (b :: t)

theorem decodeString_encodeString (s rest : Bytes) (h : ValidString s = true) :
    decodeString (encodeString s ++ rest) = some (s, rest) := by
  unfold encodeString decodeString
  simp only [List.append_assoc, List.singleton_append, List.cons_append, List.nil_append]
  exact unquote_escapeString s.length s rest _ (le_refl _) h (by simp; omega)

theorem expect_append (lit rest : Bytes) : expect lit (lit ++ rest) = some rest := by
  simp [expect, hasPrefix]

theorem decodeBytes_encodeBytes (bs rest : Bytes) :
    decodeBytes (encodeBytes bs ++ rest) = some (bs, rest) := by
  have hq : decodeString (encodeBytes bs ++ rest) = some (b64Encode bs, rest) := by
    unfold encodeBytes decodeString
    simp only [List.append_assoc, List.singleton_append, List.cons_append, List.nil_append]
    exact unquote_plain _ _ _ (b64Encode_plain bs) (by simp; omega)
  have hn : ascii "null" = [110, 117, 108, 108] := by decide
  have hnull : expect (ascii "null") (encodeBytes bs ++ rest) = none := by
    unfold expect
    rw [if_neg]
    simp only [hasPrefix, encodeBytes, hn, List.append_assoc, List.singleton_append,
      List.cons_append, List.length_cons, List.length_nil, List.take_succ_cons,
      Bool.and_eq_true, decide_eq_true_eq, List.cons.injEq, not_and]
    intro _ h
    exact absurd h (by decide)
  unfold decodeBytes
  rw [hnull, hq]
  simp [b64Decode_b64Encode]


/-! ## JSON text of a wallet: reading inverts writing -/

theorem itoaCheck_all : (List.range 256).all itoaCheck = true := by decide!

theorem itoa_spec (v : Fin 256) :
    (∀ c ∈ itoa v.val, 48 ≤ c.val ∧ c.val ≤ 57) ∧ itoa v.val ≠ [] ∧
      ¬ ((itoa v.val).length > 1 ∧ (itoa v.val).head? = some 48) ∧
      digitsValue (itoa v.val) = v.val := by
  have h := List.all_eq_true.mp itoaCheck_all v.val (List.mem_range.mpr v.isLt)
  simp only [itoaCheck, Bool.and_eq_true, List.all_eq_true, decide_eq_true_eq,
    Bool.not_eq_true', List.isEmpty_eq_false, beq_iff_eq, Bool.and_eq_false_iff,
    decide_eq_false_iff_not, beq_eq_false_iff_ne, ne_eq] at h
  obtain ⟨⟨⟨h1, h2⟩, h3⟩, h4⟩ := h
  refine ⟨h1, h2, ?_, h4⟩
  rintro ⟨ha, hb⟩
  rcases h3 with h3 | h3
  · exact h3 ha
  · exact h3 hb

theorem decodeUint8_itoa (v : Byte) (c : Byte) (rest : Bytes) (hc : ¬ (48 ≤ c.val ∧ c.val ≤ 57)) :
    decodeUint8 (itoa v.val ++ c :: rest) = some (v, c :: rest) := by
  obtain ⟨h1, h2, h3, h4⟩ := itoa_spec v
  have ht : (itoa v.val ++ c :: rest).takeWhile (fun c => decide (48 ≤ c.val ∧ c.val ≤ 57)) =
      itoa v.val := by
    rw [List.takeWhile_append_of_pos (fun a ha => by simpa using h1 a ha)]
    simp [List.takeWhile, hc]
  unfold decodeUint8
  simp only [ht]
  rw [if_neg (by
    rw [h4]
    have := v.isLt
    simp only [h2, false_or, not_or]
    exact ⟨h3, by omega⟩)]
  simp only [List.drop_left, h4]
  rw [byte_ext_of_val _ v rfl]

theorem keyNickname_head : ∃ tail, keyNickname = 44 :: tail :=
  ⟨ascii "\"Nickname\":", by decide⟩

theorem some_bind_eq {α β : Type} (a : α) (f : α → Option β) : (some a >>= f) = f a := rfl

theorem parseWallet_marshal (w : Wallet) (hn : ValidString w.Nickname = true)
    (ha : ValidString w.Address = true) :
    parseWallet (keyVersion ++ (itoa w.Version.val ++ (keyNickname ++ (encodeString w.Nickname ++
      (keyAddress ++ (encodeString w.Address ++ (keyPrivateKey ++
      (encodeBytes w.KeyPair.PrivateKey ++ (keyPublicKey ++ (encodeBytes w.KeyPair.PublicKey ++
      (keySalt ++ (encodeBytes w.KeyPair.Salt ++ (keyNonce ++
      (encodeBytes w.KeyPair.Nonce ++ closeObjects)))))))))))))) = some w := by
  obtain ⟨tail, htail⟩ := keyNickname_head
  unfold parseWallet
  rewrite [expect_append, some_bind_eq]
  rewrite [htail, List.cons_append, decodeUint8_itoa w.Version 44 _ (by decide), some_bind_eq]
  dsimp only
  rewrite [← List.cons_append, expect_append, some_bind_eq, decodeString_encodeString _ _ hn,
    some_bind_eq]
  dsimp only
  rewrite [expect_append, some_bind_eq, decodeString_encodeString _ _ ha, some_bind_eq]
  dsimp only
  rewrite [expect_append, some_bind_eq, decodeBytes_encodeBytes, some_bind_eq]
  dsimp only
  rewrite [expect_append, some_bind_eq, decodeBytes_encodeBytes, some_bind_eq]
  dsimp only
  rewrite [expect_append, some_bind_eq, decodeBytes_encodeBytes, some_bind_eq]
  dsimp only
  rewrite [expect_append, some_bind_eq, decodeBytes_encodeBytes, some_bind_eq]
  dsimp only
  have hclose : expect closeObjects closeObjects = some [] := by
    have := expect_append closeObjects []
    rwa [List.append_nil] at this
  rewrite [hclose, some_bind_eq, if_pos rfl]
  rfl

/-- Reading the text `json.Marshal` writes for a wallet whose nickname and address are valid
UTF-8 gives the wallet back. -/
theorem jsonUnmarshal_jsonMarshal (w : Wallet) (text : Bytes) (hn : ValidString w.Nickname = true)
    (ha : ValidString w.Address = true) (hm : jsonMarshal w = .ok text) :
    jsonUnmarshal text = .ok w := by
  simp only [jsonMarshal, Except.ok.injEq] at hm
  subst hm
  unfold jsonUnmarshal marshalText
  simp only [List.append_assoc]
  rewrite [parseWallet_marshal w hn ha]
  rfl

/-! ## The wallet store -/

theorem find_put (fs : FS) (name : GoString) (data : Bytes) :
    (fs.put name data).find name = some ⟨name, .ok data⟩ := by
  simp [FS.put, FS.find]

theorem ReadFile_put (fs : FS) (name : GoString) (data : Bytes) :
    (fs.put name data).ReadFile name = .ok data := by
  unfold FS.ReadFile
  rw [find_put]

/-- When `Persist` reports no error, the file of the wallet holds its JSON text. -/
theorem Persist_ok (w : Wallet) (fs fs1 : FS) (h : w.Persist fs = (fs1, none)) :
    fs1.ReadFile (Filename w.Nickname) = .ok (marshalText w) := by
  unfold Wallet.Persist at h
  simp only [jsonMarshal] at h
  unfold FS.WriteFile at h
  cases hr : fs.refuse (Filename w.Nickname) with
  | some failure =>
    simp only [hr] at h
    cases hl : failure.leftover <;> simp [hl] at h
  | none =>
    simp only [hr, Prod.mk.injEq, and_true] at h
    rw [← h]
    exact ReadFile_put _ _ _

theorem Load_of_file (fs : FS) (nickname : GoString) (text : Bytes) (w : Wallet)
    (hr : fs.ReadFile (Filename nickname) = .ok text) (hu : jsonUnmarshal text = .ok w) :
    Load fs nickname = .ok w := by
  unfold Load
  simp only [hr, hu]

theorem Persist_written (w : Wallet) (fs : FS) (h : fs.refuse (Filename w.Nickname) = none) :
    w.Persist fs = (fs.put (Filename w.Nickname) (marshalText w), none) := by
  unfold Wallet.Persist jsonMarshal FS.WriteFile
  simp only [h]

/-- C6 (as amended): for every wallet whose nickname and address are valid UTF-8, when
`Persist` succeeds, `Load` of the nickname succeeds and returns the wallet, field by field. -/
theorem C6_persist_load_roundtrip (w : Wallet) (fs fs1 : FS)
    (hn : ValidString w.Nickname = true) (ha : ValidString w.Address = true)
    (hp : w.Persist fs = (fs1, none)) :
    Load fs1 w.Nickname = .ok w :=
  Load_of_file fs1 w.Nickname (marshalText w) w (Persist_ok w fs fs1 hp)
    (jsonUnmarshal_jsonMarshal w _ hn ha rfl)

/-- C6, witness: the sample wallet persisted in an empty directory. -/
theorem C6_witness :
    sampleWallet.Persist emptyFS =
        (emptyFS.put (Filename sampleWallet.Nickname) (marshalText sampleWallet), none) ∧
      Load (emptyFS.put (Filename sampleWallet.Nickname) (marshalText sampleWallet))
        sampleWallet.Nickname = .ok sampleWallet :=
  ⟨Persist_written sampleWallet emptyFS rfl,
    C6_persist_load_roundtrip sampleWallet emptyFS _ (by decide) (by decide)
      (Persist_written sampleWallet emptyFS rfl)⟩

theorem parseWallet_badNick : parseWallet (marshalText badNickWallet) = some badNickLoaded := by
  decide!

/-- C6, counterexample: a wallet whose nickname is not valid UTF-8 is persisted without
error, and `Load` returns a wallet with another nickname. -/
theorem C6_counterexample :
    (badNickWallet.Persist emptyFS).2 = none ∧
    Load (badNickWallet.Persist emptyFS).1 badNickWallet.Nickname = .ok badNickLoaded ∧
    badNickLoaded ≠ badNickWallet := by
  have hp := Persist_written badNickWallet emptyFS rfl
  refine ⟨by rw [hp], ?_, by decide⟩
  rw [hp]
  refine Load_of_file _ _ (marshalText badNickWallet) _ (ReadFile_put _ _ _) ?_
  unfold jsonUnmarshal
  rw [parseWallet_badNick]

end wallet
